import Mathlib

/-!
Verification development for the ruruby-parse front-end parser.

The Rust sources embedded here are `src/parser.rs` and `src/parser/flow_control.rs`.
Supporting modules of the crate that are not present in the source tree
(`lvar_collector.rs`, `node.rs`, `token.rs`, `error.rs`, and the parser submodules
`define.rs` / `expression.rs` / `lexer.rs` / `literals.rs`) are modelled from the
specification; every such definition carries a doc comment starting with
`Modelled from the spec:`.

Conventions of the embedding:
* Rust `Vec` stacks (scope stack, loop stack) are Lean lists with the HEAD as the
  top of the stack (the innermost frame).  Rust's `iter().rev()` therefore becomes
  plain structural recursion.
* Machine integers (`usize`) are `Nat`; no arithmetic here can overflow in the
  source (indices into in-memory vectors), so no wrap-around modelling is needed.
* Fallible Rust functions returning `Result<_, LexerErr>` become functions into
  `PRes`, whose third constructor `out` marks the non-returning paths of the
  model: fuel exhaustion of a loop, or a path on which the source panics
  (`unreachable!()` / `unwrap()` on an empty stack).  No theorem below is about
  `out` results.
-/

namespace RurubyParse

/-- Byte-range source location, from `src/source_info.rs` (`pub struct Loc(pub usize, pub usize)`). -/
structure Loc where
  first : Nat
  last : Nat
deriving DecidableEq, Repr

instance : Inhabited Loc := ⟨⟨0, 0⟩⟩

/-- Faithful to `Loc::merge` in `src/source_info.rs`: smallest range containing both. -/
def Loc.merge (a b : Loc) : Loc := ⟨min a.first b.first, max a.last b.last⟩

/-- Modelled from the spec: error kinds (`error.rs` is absent from src/).  Only the
two kinds constructed by the embedded parser code are needed: `UnexpectedEOF` and
free-form `SyntaxError` (used for contextual violations such as duplicate
parameters and illegal break). -/
inductive ParseErrKind where
  | UnexpectedEOF
  | SyntaxError (msg : String)
deriving DecidableEq, Repr

/-- Error value `LexerErr(ParseErrKind, Loc)` as constructed throughout `parser.rs`. -/
structure LexerErr where
  kind : ParseErrKind
  loc : Loc
deriving DecidableEq, Repr

/-- Result of a model parser step: success, error, or a non-returning path
(fuel exhaustion / source panic).  See the module docstring. -/
inductive PRes (α : Type) where
  | ok (a : α)
  | err (e : LexerErr)
  | out

/-- Sequencing of state-threading parser steps; errors and non-returning paths
propagate. -/
def pbind {α β : Type} {σ : Type} (m : PRes (α × σ)) (f : α → σ → PRes (β × σ)) :
    PRes (β × σ) :=
  match m with
  | .ok (a, st) => f a st
  | .err e => .err e
  | .out => .out

/-- Faithful to `error_unexpected` in `src/parser.rs`. -/
def error_unexpected (loc : Loc) (msg : String) : LexerErr :=
  ⟨ParseErrKind.SyntaxError msg, loc⟩

/-- Faithful to `error_eof` in `src/parser.rs`. -/
def error_eof (loc : Loc) : LexerErr := ⟨ParseErrKind.UnexpectedEOF, loc⟩

/-! ## Tokens

`token.rs` is absent from src/; the token data model is taken from the spec
(§3 Token: identifier, constant, reserved keyword, punctuator, literal,
end-of-file / line-terminator marker, each with a byte-range location), with
exactly the punctuators and keywords the embedded parser code consumes. -/

/-- Modelled from the spec: the punctuator subkinds consumed by the embedded code. -/
inductive Punct where
  | Comma | LParen | RParen | LBrace | RBrace | LBracket | RBracket
  | BitOr | LOr | BitAnd | Mul | DMul | Assign | Colon | Semi | Range3
deriving DecidableEq, Repr

/-- Modelled from the spec: the reserved keywords consumed by the embedded code. -/
inductive Reserved where
  | Do | Then | End | If | Unless | Elsif | Else | In | While | For | When
  | Break | Next | Redo
deriving DecidableEq, Repr

/-- Modelled from the spec: classified lexical token kinds. -/
inductive TokenKind where
  | Ident (s : String)
  | Const (s : String)
  | Reserved (r : Reserved)
  | Punct (p : Punct)
  | IntLit (n : Int)
  | LineTerm
  | EOF
deriving DecidableEq, Repr

/-- A token with its byte-range location. -/
structure Token where
  kind : TokenKind
  loc : Loc
deriving DecidableEq, Repr

/-- Modelled from the spec: end-of-file marker test (`token.rs` is absent). -/
def Token.is_eof (t : Token) : Bool := t.kind = TokenKind.EOF

/-- Modelled from the spec: line-terminator test (`token.rs` is absent). -/
def Token.is_line_term (t : Token) : Bool := t.kind = TokenKind.LineTerm

/-- Modelled from the spec: statement-terminator test.  The in-source doc comment
of `Parser::consume_term` states the definition: a line terminator or `;` or EOF. -/
def Token.is_term (t : Token) : Bool :=
  t.is_line_term || t.is_eof || t.kind = TokenKind.Punct Punct.Semi

/-- Modelled from the spec: `check_stmt_end` (`token.rs` is absent).  Used by
`parse_break_sub` to decide that the optional value is absent: "if the next token
indicates a statement terminator or certain clause-introducing keywords, the
value defaults to a nil literal".  Clause-introducing keywords and closing
brackets end the statement (`[1].each { break }` must treat `}` this way). -/
def Token.check_stmt_end (t : Token) : Bool :=
  t.is_term ||
  (match t.kind with
   | TokenKind.Reserved r =>
     r = Reserved.Then || r = Reserved.Do || r = Reserved.Else || r = Reserved.Elsif ||
     r = Reserved.End || r = Reserved.When || r = Reserved.In
   | TokenKind.Punct p =>
     p = Punct.RParen || p = Punct.RBrace || p = Punct.RBracket
   | _ => false)

/-! ## Local-variable collector

`lvar_collector.rs` is absent from src/; the collector is modelled from the spec
(§3 ScopeFrame): a variable collector "mapping local-variable names to compact
slot ids in declaration order, plus auxiliary slot lists for keyword parameters,
a possible rest-keyword slot, a possible block-parameter slot, and a possible
delegate slot". -/

/-- Modelled from the spec: slot lookup in a declaration-order name table
(plain name-to-id mapping; the id is the declaration index). -/
def tableLookup : List String → String → Option Nat
  | [], _ => none
  | n :: rest, id => if n = id then some 0 else (tableLookup rest id).map (· + 1)

/-- Modelled from the spec: the per-frame variable collector (§3 ScopeFrame). -/
structure LvarCollector where
  table : List String
  kw : List Nat
  kwrest_param : Option Nat
  block_param : Option Nat
  delegate_param : Option Nat
deriving DecidableEq, Repr

/-- Empty collector (`LvarCollector::new` / `Default`). -/
def LvarCollector.new : LvarCollector := ⟨[], [], none, none, none⟩

instance : Inhabited LvarCollector := ⟨LvarCollector.new⟩

/-- Modelled from the spec: slot of `id` in this frame, if declared. -/
def LvarCollector.get_lvarid (c : LvarCollector) (id : String) : Option Nat :=
  tableLookup c.table id

/-- Modelled from the spec: ordinary-variable insertion — "re-using a name already
bound as an ordinary local variable when adding a new ordinary local variable is
idempotent (returns the existing slot)"; a fresh name is appended in declaration
order. -/
def LvarCollector.insert (c : LvarCollector) (name : String) : Nat × LvarCollector :=
  match tableLookup c.table name with
  | some i => (i, c)
  | none => (c.table.length, { c with table := c.table ++ [name] })

/-- Modelled from the spec: parameter insertion — "fails if the name is already a
parameter in that same frame"; returns the new slot otherwise. -/
def LvarCollector.insert_new (c : LvarCollector) (name : String) :
    Option (Nat × LvarCollector) :=
  match tableLookup c.table name with
  | some _ => none
  | none => some (c.table.length, { c with table := c.table ++ [name] })

/-- Modelled from the spec: keyword-rest insertion — "each frame may hold at most
one of each; a second attempt fails with DuplicateParam". -/
def LvarCollector.insert_kwrest_param (c : LvarCollector) (name : String) :
    Option (Nat × LvarCollector) :=
  if c.kwrest_param.isSome then none
  else (c.insert_new name).map fun p => (p.1, { p.2 with kwrest_param := some p.1 })

/-- Modelled from the spec: block-parameter insertion — at most one per frame; a
second attempt fails with DuplicateParam. -/
def LvarCollector.insert_block_param (c : LvarCollector) (name : String) :
    Option (Nat × LvarCollector) :=
  if c.block_param.isSome then none
  else (c.insert_new name).map fun p => (p.1, { p.2 with block_param := some p.1 })

/-- Modelled from the spec: delegate-parameter insertion — at most one per frame; a
second attempt fails with DuplicateParam.  The delegate has no user name; it is
recorded under the forwarding sigil. -/
def LvarCollector.insert_delegate_param (c : LvarCollector) :
    Option (Nat × LvarCollector) :=
  if c.delegate_param.isSome then none
  else (c.insert_new "...").map fun p => (p.1, { p.2 with delegate_param := some p.1 })

/-! ## Scope frames and identifier resolution (from `src/parser.rs`) -/

/-- Faithful to `enum ScopeKind` in `src/parser.rs`. -/
inductive ScopeKind where
  | Eval | Class | Method | Block | For
deriving DecidableEq, Repr

/-- Faithful to `struct LvarScope` in `src/parser.rs`. -/
structure LvarScope where
  kind : ScopeKind
  lvar : LvarCollector
deriving DecidableEq, Repr

/-- Faithful to `LvarScope::new_method`. -/
def LvarScope.new_method : LvarScope := ⟨ScopeKind.Method, LvarCollector.new⟩

/-- Faithful to `LvarScope::new_eval`. -/
def LvarScope.new_eval (c : Option LvarCollector) : LvarScope :=
  ⟨ScopeKind.Eval, c.getD LvarCollector.new⟩

/-- Faithful to `LvarScope::new_class`. -/
def LvarScope.new_class (c : Option LvarCollector) : LvarScope :=
  ⟨ScopeKind.Class, c.getD LvarCollector.new⟩

/-- Faithful to `LvarScope::new_block`. -/
def LvarScope.new_block (c : Option LvarCollector) : LvarScope :=
  ⟨ScopeKind.Block, c.getD LvarCollector.new⟩

/-- Faithful to `LvarScope::new_for`. -/
def LvarScope.new_for : LvarScope := ⟨ScopeKind.For, LvarCollector.new⟩

/-- One frame of the external enclosing-context chain.  In `src/parser.rs` the
field `extern_context: Option<DummyFrame>` is iterated through `get_lvarid` and
`outer()`; the chain so generated is modelled as a list of frames, each exposing
a name table (the commented-out `LocalsContext` trait in `src/parser.rs` names
exactly these two operations).  The crate's own `DummyFrame` is the frame whose
table is empty and which has no outer link, i.e. the chain `[]` or
`[ExternFrame.dummy]`. -/
structure ExternFrame where
  table : List String
deriving DecidableEq, Repr

/-- Lookup in one external frame (`DummyFrame::get_lvarid` shape). -/
def ExternFrame.get_lvarid (a : ExternFrame) (id : String) : Option Nat :=
  tableLookup a.table id

/-- Faithful to `DummyFrame` in `src/parser.rs`: `get_lvarid` always returns `None`. -/
def ExternFrame.dummy : ExternFrame := ⟨[]⟩

/-- Outcome of the scope-stack phase of `Parser::is_local_var`: the name was
found at block depth `outer`; the walk hit a Method/Class/Eval frame that does
not bind the name (the `_ => return None` arm); or the stack was exhausted with
the depth counter at `outer`. -/
inductive StackRes where
  | found (outer : Nat)
  | stopped
  | exhausted (outer : Nat)
deriving DecidableEq, Repr

/-- Faithful to the first loop of `Parser::is_local_var` (src/parser.rs:202-213):
walk frames innermost-to-outermost; a binding frame yields `found` with the
current depth; a Block frame increments the depth, a For frame is transparent
without incrementing, and Method/Class/Eval frames stop the search. -/
def is_local_var_scope : List LvarScope → String → Nat → StackRes
  | [], _, outer => .exhausted outer
  | c :: rest, id, outer =>
    if (c.lvar.get_lvarid id).isSome then .found outer
    else
      match c.kind with
      | .Block => is_local_var_scope rest id (outer + 1)
      | .For => is_local_var_scope rest id outer
      | _ => .stopped

/-- Faithful to the second loop of `Parser::is_local_var` (src/parser.rs:214-221):
walk the external chain, incrementing the depth per level. -/
def extern_walk : List ExternFrame → String → Nat → Option Nat
  | [], _, _ => none
  | a :: rest, id, outer =>
    if (a.get_lvarid id).isSome then some outer else extern_walk rest id (outer + 1)

/-- Faithful to `Parser::is_local_var` (src/parser.rs:202-223).  The scope list
head is the innermost frame; the extern chain is consulted only when the stack
is exhausted without hitting a Method/Class/Eval frame. -/
def is_local_var (scope : List LvarScope) (ext : List ExternFrame) (id : String) :
    Option Nat :=
  match is_local_var_scope scope id 0 with
  | .found outer => some outer
  | .stopped => none
  | .exhausted outer => extern_walk ext id outer

/-- Faithful to the insertion loop of `Parser::add_local_var_if_new`
(src/parser.rs:147-155): insert into the innermost frame whose kind is not For.
`none` is the `unreachable!()` path (every frame is a For frame). -/
def insert_walk : List LvarScope → String → Option (List LvarScope)
  | [], _ => none
  | c :: rest, name =>
    match c.kind with
    | .For => (insert_walk rest name).map (c :: ·)
    | _ => some ({ c with lvar := (c.lvar.insert name).2 } :: rest)

/-- Faithful to `Parser::add_local_var_if_new` (src/parser.rs:143-158): if the
name resolves through the scope chain, return its depth with the stack
unchanged; otherwise insert it into the innermost non-For frame and return
depth 0.  `none` is the source's `unreachable!()`. -/
def add_local_var_if_new (scope : List LvarScope) (ext : List ExternFrame)
    (name : String) : Option (Nat × List LvarScope) :=
  match is_local_var scope ext name with
  | some outer => some (outer, scope)
  | none => (insert_walk scope name).map fun s => (0, s)

/-! ## Loop stack -/

/-- Faithful to `enum LoopKind` in `src/parser.rs`. -/
inductive LoopKind where
  | Top | Block | While | For
deriving DecidableEq, Repr

/-- The spec's claimed legality test for C8: the innermost non-Block marker,
i.e. the nearest marker after skipping any Block markers (head = innermost). -/
def innermost_non_block (l : List LoopKind) : Option LoopKind :=
  (l.dropWhile fun k => k = LoopKind.Block).head?

/-! ## AST nodes and formal parameters

`node.rs` is absent from src/; the node forms and the `FormalParam` variants are
modelled from the spec (§3 AST Node, FormalParam) with exactly the constructors
the embedded parser code builds, each carrying its `Loc`. -/

mutual
/-- Modelled from the spec: one parameter slot of a parameter list (§3
FormalParam); constructor names follow the `FormalParam::…` builders called in
`src/parser.rs` (including the source's spelling `delegeate`). -/
inductive FormalParam where
  | req_param (name : String) (loc : Loc)
  | optional (name : String) (default : Node) (loc : Loc)
  | rest (name : String) (loc : Loc)
  | rest_discard (loc : Loc)
  | post (name : String) (loc : Loc)
  | keyword (name : String) (default : Option Node) (loc : Loc)
  | kwrest (name : String) (loc : Loc)
  | block (name : String) (loc : Loc)
  | delegeate (loc : Loc)
  | destruct_param (idents : List (String × Loc))

/-- Modelled from the spec: the AST node forms built by the embedded parser code
(§3 AST Node). -/
inductive Node where
  | nil (loc : Loc)
  | integer (n : Int) (loc : Loc)
  | ident (name : String) (loc : Loc)
  | compStmt (stmts : List Node) (loc : Loc)
  | ifNode (cond thenBody elseBody : Node) (loc : Loc)
  | whileNode (cond body : Node) (is_while : Bool) (loc : Loc)
  | forNode (param : List (Nat × String)) (iter : Node) (params : List FormalParam)
      (body : Node) (lvar : LvarCollector) (loc : Loc)
  | breakNode (val : Node) (loc : Loc)
  | nextNode (val : Node) (loc : Loc)
  | arrayNode (elems : List Node) (loc : Loc)
  | lambda (params : List FormalParam) (body : Node) (lvar : LvarCollector) (loc : Loc)
end

/-- Location of a node (`Annot::loc` in `src/lib.rs`). -/
def Node.loc : Node → Loc
  | .nil l => l
  | .integer _ l => l
  | .ident _ l => l
  | .compStmt _ l => l
  | .ifNode _ _ _ l => l
  | .whileNode _ _ _ l => l
  | .forNode _ _ _ _ _ l => l
  | .breakNode _ l => l
  | .nextNode _ l => l
  | .arrayNode _ l => l
  | .lambda _ _ _ l => l

/-- Modelled from the spec: `Node::new_nil`. -/
def Node.new_nil (loc : Loc) : Node := .nil loc

/-- Modelled from the spec: `Node::new_comp_stmt`. -/
def Node.new_comp_stmt (stmts : List Node) (loc : Loc) : Node := .compStmt stmts loc

/-- Modelled from the spec: `Node::new_if cond then else loc` — the first node
argument is the then-branch, the second the else-branch. -/
def Node.new_if (cond then_ else_ : Node) (loc : Loc) : Node :=
  .ifNode cond then_ else_ loc

/-- Modelled from the spec: `Node::new_while`. -/
def Node.new_while (cond body : Node) (is_while : Bool) (loc : Loc) : Node :=
  .whileNode cond body is_while loc

/-- Modelled from the spec: `Node::new_break`. -/
def Node.new_break (val : Node) (loc : Loc) : Node := .breakNode val loc

/-- Modelled from the spec: `Node::new_next`. -/
def Node.new_next (val : Node) (loc : Loc) : Node := .nextNode val loc

/-- Modelled from the spec: `Node::new_array`. -/
def Node.new_array (elems : List Node) (loc : Loc) : Node := .arrayNode elems loc

/-- Modelled from the spec: `Node::new_lambda` (block/lambda node owning the
block's finished variable collector). -/
def Node.new_lambda (params : List FormalParam) (body : Node) (lvar : LvarCollector)
    (loc : Loc) : Node := .lambda params body lvar loc

/-! ## Parser state

The mutable fields of `struct Parser` in `src/parser.rs`, with the lexer replaced
by its contract: the not-yet-consumed token list (the lexer is external and
assumed correct per §1 of the spec).  `eofLoc` is the location the lexer reports
for the end-of-file marker. -/

/-- The parser state: token stream plus the fields of `struct Parser`
(src/parser.rs:33-51).  Stacks have their innermost entry at the head. -/
structure PState where
  tokens : List Token
  eofLoc : Loc
  prev_loc : Loc
  scope : List LvarScope
  loop_stack : List LoopKind
  extern_context : List ExternFrame
  suppress_acc_assign : Bool
  suppress_mul_assign : Bool
  suppress_do_block : Bool
  defined_mode : Bool
deriving DecidableEq, Repr

/-- The state a fresh parse starts in (`Parser::new`, src/parser.rs:81-92, with
the initial Eval scope of `parse_program`). -/
def initState (toks : List Token) : PState :=
  { tokens := toks, eofLoc := ⟨0, 0⟩, prev_loc := ⟨0, 0⟩,
    scope := [LvarScope.new_eval none], loop_stack := [LoopKind.Top],
    extern_context := [], suppress_acc_assign := false, suppress_mul_assign := false,
    suppress_do_block := false, defined_mode := false }

/-- Drop leading line-terminator tokens (the lexer's skip-line-term lookahead). -/
def dropLT (l : List Token) : List Token := l.dropWhile (·.is_line_term)

/-- Faithful to `Parser::peek_no_term` via the lexer contract: next token without
skipping line terminators; the implicit end-of-file marker when exhausted. -/
def peek_no_term (st : PState) : Token :=
  match st.tokens with
  | [] => ⟨TokenKind.EOF, st.eofLoc⟩
  | t :: _ => t

/-- Faithful to `Parser::peek`: next token, skipping line terminators. -/
def peek (st : PState) : Token :=
  match dropLT st.tokens with
  | [] => ⟨TokenKind.EOF, st.eofLoc⟩
  | t :: _ => t

/-- Faithful to `Parser::loc`: location of the next token (no skipping). -/
def locOf (st : PState) : Loc := (peek_no_term st).loc

/-- Faithful to `Parser::get` (src/parser.rs:258-269): skip line terminators,
error on the end-of-file marker, otherwise consume and record `prev_loc`. -/
def get (st : PState) : PRes (Token × PState) :=
  match dropLT st.tokens with
  | [] => .err (error_eof st.eofLoc)
  | t :: rest =>
    if t.is_eof then .err (error_eof t.loc)
    else .ok (t, { st with tokens := rest, prev_loc := t.loc })

/-- Faithful to `Parser::get_no_skip_line_term`: consume one token (possibly the
end-of-file marker), recording `prev_loc`. -/
def get_no_skip_line_term (st : PState) : Token × PState :=
  match st.tokens with
  | [] => (⟨TokenKind.EOF, st.eofLoc⟩, { st with prev_loc := st.eofLoc })
  | t :: rest => (t, { st with tokens := rest, prev_loc := t.loc })

/-- Faithful to `Parser::consume_punct`: if the next token (skipping line
terminators) is the expected punctuator, consume it and return true. -/
def consume_punct (st : PState) (expect : Punct) : Bool × PState :=
  match dropLT st.tokens with
  | t :: rest =>
    if t.kind = TokenKind.Punct expect then
      (true, { st with tokens := rest, prev_loc := t.loc })
    else (false, st)
  | [] => (false, st)

/-- Faithful to `Parser::consume_punct_no_term`: same without skipping line
terminators. -/
def consume_punct_no_term (st : PState) (expect : Punct) : Bool × PState :=
  match st.tokens with
  | t :: rest =>
    if t.kind = TokenKind.Punct expect then
      (true, { st with tokens := rest, prev_loc := t.loc })
    else (false, st)
  | [] => (false, st)

/-- Faithful to `Parser::consume_reserved`. -/
def consume_reserved (st : PState) (expect : Reserved) : Bool × PState :=
  match dropLT st.tokens with
  | t :: rest =>
    if t.kind = TokenKind.Reserved expect then
      (true, { st with tokens := rest, prev_loc := t.loc })
    else (false, st)
  | [] => (false, st)

/-- Faithful to `Parser::consume_reserved_no_skip_line_term`. -/
def consume_reserved_no_skip_line_term (st : PState) (expect : Reserved) :
    Bool × PState :=
  match st.tokens with
  | t :: rest =>
    if t.kind = TokenKind.Reserved expect then
      (true, { st with tokens := rest, prev_loc := t.loc })
    else (false, st)
  | [] => (false, st)

/-- Faithful to `Parser::consume_ident`: consume and return the next token if it
is an identifier. -/
def consume_ident (st : PState) : Option String × PState :=
  match dropLT st.tokens with
  | t :: rest =>
    match t.kind with
    | TokenKind.Ident s => (some s, { st with tokens := rest, prev_loc := t.loc })
    | _ => (none, st)
  | [] => (none, st)

/-- Faithful to `Parser::consume_term` (src/parser.rs:342-352): consume a maximal
run of statement terminators; true exactly when at least one was next (the
end-of-file marker counts and ends the run). -/
def consume_term (st : PState) : Bool × PState :=
  match st.tokens with
  | [] => (true, { st with prev_loc := st.eofLoc })
  | t :: _ =>
    if t.is_term then
      let dropped := st.tokens.takeWhile (·.is_term)
      match st.tokens.dropWhile (·.is_term) with
      | [] => (true, { st with tokens := [], prev_loc := st.eofLoc })
      | rest =>
        (true, { st with tokens := rest,
                         prev_loc := ((dropped.getLast?).map Token.loc).getD st.prev_loc })
    else (false, st)

/-- Faithful to `Parser::expect_reserved`; the source formats the expected and
found kinds into the message, abridged here to a fixed string. -/
def expect_reserved (st : PState) (expect : Reserved) : PRes (Unit × PState) :=
  match get st with
  | .ok (t, st') =>
    if t.kind = TokenKind.Reserved expect then .ok ((), st')
    else .err (error_unexpected st'.prev_loc "Expect reserved keyword mismatch.")
  | .err e => .err e
  | .out => .out

/-- Faithful to `Parser::expect_punct`; message abridged as for
`expect_reserved`. -/
def expect_punct (st : PState) (expect : Punct) : PRes (Unit × PState) :=
  match get st with
  | .ok (t, st') =>
    if t.kind = TokenKind.Punct expect then .ok ((), st')
    else .err (error_unexpected st'.prev_loc "Expect punctuator mismatch.")
  | .err e => .err e
  | .out => .out

/-- Faithful to `Parser::expect_ident`. -/
def expect_ident (st : PState) : PRes (String × PState) :=
  match get st with
  | .ok (t, st') =>
    match t.kind with
    | TokenKind.Ident name => .ok (name, st')
    | _ => .err (error_unexpected st'.prev_loc "Expect identifier.")
  | .err e => .err e
  | .out => .out

/-! ## Scope operations on the parser state (from `src/parser.rs`) -/

/-- Faithful to `Parser::is_breakable` (src/parser.rs:122-124):
`loop_stack.last() != Some(&LoopKind::Top)`, with the head as innermost. -/
def PState.is_breakable (st : PState) : Bool :=
  match st.loop_stack.head? with
  | some LoopKind.Top => false
  | _ => true

/-- `Parser::is_local_var` on the parser state. -/
def PState.is_local_var (st : PState) (id : String) : Option Nat :=
  RurubyParse.is_local_var st.scope st.extern_context id

/-- `Parser::add_local_var_if_new` on the parser state; `out` is the source's
`unreachable!()`. -/
def PState.add_local_var_if_new (st : PState) (name : String) : PRes (Nat × PState) :=
  match RurubyParse.add_local_var_if_new st.scope st.extern_context name with
  | some (outer, scope') => .ok (outer, { st with scope := scope' })
  | none => .out

/-- Faithful to `Parser::new_param` (src/parser.rs:162-167): insert a new
parameter in the current (innermost) frame; a duplicate name is an error at the
given location.  `out` is the source's panic on an empty scope stack. -/
def new_param (st : PState) (name : String) (loc : Loc) : PRes (Nat × PState) :=
  match st.scope with
  | [] => .out
  | c :: rest =>
    match c.lvar.insert_new name with
    | some p => .ok (p.1, { st with scope := { c with lvar := p.2 } :: rest })
    | none => .err (error_unexpected loc "Duplicated argument name.")

/-- Faithful to `Parser::add_kw_param`: record a keyword-parameter slot in the
current frame. -/
def add_kw_param (st : PState) (lvar : Nat) : PRes (Unit × PState) :=
  match st.scope with
  | [] => .out
  | c :: rest =>
    .ok ((), { st with
      scope := { c with lvar := { c.lvar with kw := c.lvar.kw ++ [lvar] } } :: rest })

/-- Faithful to `Parser::new_kwrest_param` (src/parser.rs:175-180). -/
def new_kwrest_param (st : PState) (name : String) (loc : Loc) : PRes (Unit × PState) :=
  match st.scope with
  | [] => .out
  | c :: rest =>
    match c.lvar.insert_kwrest_param name with
    | some p => .ok ((), { st with scope := { c with lvar := p.2 } :: rest })
    | none => .err (error_unexpected loc "Duplicated argument name.")

/-- Faithful to `Parser::new_block_param` (src/parser.rs:184-189). -/
def new_block_param (st : PState) (name : String) (loc : Loc) : PRes (Unit × PState) :=
  match st.scope with
  | [] => .out
  | c :: rest =>
    match c.lvar.insert_block_param name with
    | some p => .ok ((), { st with scope := { c with lvar := p.2 } :: rest })
    | none => .err (error_unexpected loc "Duplicated argument name.")

/-- Faithful to `Parser::new_delegate_param` (src/parser.rs:193-198). -/
def new_delegate_param (st : PState) (loc : Loc) : PRes (Unit × PState) :=
  match st.scope with
  | [] => .out
  | c :: rest =>
    match c.lvar.insert_delegate_param with
    | some p => .ok ((), { st with scope := { c with lvar := p.2 } :: rest })
    | none => .err (error_unexpected loc "Duplicated argument name.")

/-! ## Sub-grammar interface

The expression / statement sub-grammars live in the parser submodules
(`expression.rs`, `define.rs`, `literals.rs`) that are absent from src/.  The
embedded grammar procedures are parameterized over them; spec-modelled concrete
instances follow further below. -/

/-- The sub-parsers an embedded grammar procedure calls into: `parse_expr`,
`parse_comp_stmt`, `parse_arg`, `parse_primary` (as called with `true` for
block-parameter defaults), and `parse_begin` (the `do … end` block body). -/
structure SubParsers where
  parse_expr : PState → PRes (Node × PState)
  parse_comp_stmt : PState → PRes (Node × PState)
  parse_arg : PState → PRes (Node × PState)
  parse_primary : PState → PRes (Node × PState)
  parse_begin : PState → PRes (Node × PState)

/-! ## Formal parameter lists (`Parser::parse_formal_params`, src/parser.rs:514-698) -/

/-- Faithful to the local `enum Kind` of `parse_formal_params`
(src/parser.rs:518-526). -/
inductive ParamKind where
  | Required | Optional | Rest | PostReq | KeyWord | KWRest
deriving DecidableEq, Repr

/-- The derived `PartialOrd` of the source `Kind` enum, as a rank. -/
def ParamKind.rank : ParamKind → Nat
  | .Required => 0
  | .Optional => 1
  | .Rest => 2
  | .PostReq => 3
  | .KeyWord => 4
  | .KWRest => 5

/-- Inner loop of `Parser::parse_destruct_param` (src/parser.rs:687-695): while a
comma follows, either close on `)` (trailing comma) or read and declare the next
identifier. -/
def parse_destruct_loop (fuel : Nat) (idents : List (String × Loc)) (st : PState) :
    PRes (List (String × Loc) × PState) :=
  match fuel with
  | 0 => .out
  | fuel + 1 =>
    let (b, st) := consume_punct st Punct.Comma
    if b then
      let (bRP, st) := consume_punct st Punct.RParen
      if bRP then .ok (idents, st)
      else
        let loc := locOf st
        pbind (expect_ident st) fun name st =>
        pbind (new_param st name loc) fun _ st =>
        parse_destruct_loop fuel (idents ++ [(name, loc)]) st
    else
      pbind (expect_punct st Punct.RParen) fun _ st => .ok (idents, st)

/-- Faithful to `Parser::parse_destruct_param` (src/parser.rs:682-698): a
comma-separated list of identifiers closed by `)`, each declared as a parameter
of the current frame. -/
def parse_destruct_param (fuel : Nat) (st : PState) : PRes (FormalParam × PState) :=
  let loc := locOf st
  pbind (expect_ident st) fun name st =>
  pbind (new_param st name loc) fun _ st =>
  pbind (parse_destruct_loop fuel [(name, loc)] st) fun idents st =>
  .ok (FormalParam.destruct_param idents, st)

/-- One iteration of the `parse_formal_params` loop body between the terminator
check and the comma check (src/parser.rs:538-662): parse one parameter, yielding
the parameter, the updated ordering state, and whether the loop must break
(delegate and block parameters terminate it). -/
def param_step (sp : SubParsers) (terminator : Option Punct) (fuel : Nat)
    (state : ParamKind) (st : PState) : PRes ((FormalParam × ParamKind × Bool) × PState) :=
  let loc := locOf st
  let (bLP, st) := consume_punct st Punct.LParen
  if bLP then
    pbind (parse_destruct_param fuel st) fun p st => .ok ((p, state, false), st)
  else
    let (bR3, st) := consume_punct st Punct.Range3
    if bR3 then
      -- Argument delegation
      if ParamKind.Required.rank < state.rank then
        .err (error_unexpected loc "parameter delegate is not allowed in ths position.")
      else
        pbind (new_delegate_param st loc) fun _ st =>
          .ok ((FormalParam.delegeate loc, state, true), st)
    else
      let (bAmp, st) := consume_punct st Punct.BitAnd
      if bAmp then
        -- Block param
        pbind (expect_ident st) fun name st =>
        let loc := loc.merge st.prev_loc
        pbind (new_block_param st name loc) fun _ st =>
          .ok ((FormalParam.block name loc, state, true), st)
      else
        let (bMul, st) := consume_punct st Punct.Mul
        if bMul then
          -- Splat(Rest) param
          let loc := loc.merge st.prev_loc
          if ParamKind.Rest.rank ≤ state.rank then
            .err (error_unexpected loc "Rest parameter is not allowed in ths position.")
          else
            let (oname, st) := consume_ident st
            match oname with
            | some name =>
              pbind (new_param st name st.prev_loc) fun _ st =>
                .ok ((FormalParam.rest name loc, ParamKind.Rest, false), st)
            | none => .ok ((FormalParam.rest_discard loc, ParamKind.Rest, false), st)
        else
          let (bDM, st) := consume_punct st Punct.DMul
          if bDM then
            -- Keyword rest param
            pbind (expect_ident st) fun name st =>
            let loc := loc.merge st.prev_loc
            if ParamKind.KWRest.rank ≤ state.rank then
              .err (error_unexpected loc
                "Keyword rest parameter is not allowed in ths position.")
            else
              pbind (new_kwrest_param st name st.prev_loc) fun _ st =>
                .ok ((FormalParam.kwrest name loc, ParamKind.KWRest, false), st)
          else
            pbind (expect_ident st) fun name st =>
            let (bAs, st) := consume_punct st Punct.Assign
            if bAs then
              -- Optional param
              pbind (if terminator = some Punct.BitOr then sp.parse_primary st
                     else sp.parse_arg st) fun default st =>
              let loc := loc.merge st.prev_loc
              match state with
              | .Required | .Optional =>
                pbind (new_param st name loc) fun _ st =>
                  .ok ((FormalParam.optional name default loc, ParamKind.Optional, false), st)
              | _ =>
                .err (error_unexpected loc
                  "Optional parameter is not allowed in ths position.")
            else
              let (bCol, st) := consume_punct_no_term st Punct.Colon
              if bCol then
                -- Keyword param
                let next := (peek_no_term st).kind
                pbind
                  (if next = TokenKind.Punct Punct.Comma ∨ next = TokenKind.LineTerm then
                     .ok ((none : Option Node), st)
                   else
                     match terminator with
                     | some term =>
                       if next = TokenKind.Punct term then .ok (none, st)
                       else pbind (sp.parse_arg st) fun d st => .ok (some d, st)
                     | none => pbind (sp.parse_arg st) fun d st => .ok (some d, st))
                  fun default st =>
                let loc := loc.merge st.prev_loc
                if state = ParamKind.KWRest then
                  .err (error_unexpected loc
                    "Keyword parameter is not allowed in ths position.")
                else
                  pbind (new_param st name loc) fun lvar st =>
                  pbind (add_kw_param st lvar) fun _ st =>
                    .ok ((FormalParam.keyword name default loc, ParamKind.KeyWord, false), st)
              else
                -- Required param
                let loc := st.prev_loc
                match state with
                | .Required =>
                  pbind (new_param st name loc) fun _ st =>
                    .ok ((FormalParam.req_param name loc, ParamKind.Required, false), st)
                | .PostReq | .Optional | .Rest =>
                  pbind (new_param st name loc) fun _ st =>
                    .ok ((FormalParam.post name loc, ParamKind.PostReq, false), st)
                | _ =>
                  .err (error_unexpected loc
                    "Required parameter is not allowed in ths position.")

/-- Exit of the `parse_formal_params` loop (src/parser.rs:676-679): consume the
terminator, if any, and return the collected parameters. -/
def finish_params (terminator : Option Punct) (args : List FormalParam) (st : PState) :
    PRes (List FormalParam × PState) :=
  match terminator with
  | some term => pbind (expect_punct st term) fun _ st => .ok (args, st)
  | none => .ok (args, st)

/-- The terminator check opening each loop iteration (src/parser.rs:533-537). -/
def consume_terminator (terminator : Option Punct) (st : PState) : Bool × PState :=
  match terminator with
  | some term => consume_punct st term
  | none => (false, st)

/-- The separating comma at the end of each loop iteration
(src/parser.rs:663-674): a plain comma under a terminator, a no-term comma
without one. -/
def consume_comma_sep (terminator : Option Punct) (st : PState) : Bool × PState :=
  match terminator with
  | some _ => consume_punct st Punct.Comma
  | none => consume_punct_no_term st Punct.Comma

/-- The loop of `Parser::parse_formal_params` (src/parser.rs:532-675): at each
iteration first accept the terminator (returning the parameters so far), then
parse one parameter, then continue on a comma (no-term comma when there is no
terminator) or close the list. -/
def parse_formal_params_loop (sp : SubParsers) (terminator : Option Punct)
    (fuel : Nat) (state : ParamKind) (args : List FormalParam) (st : PState) :
    PRes (List FormalParam × PState) :=
  match fuel with
  | 0 => .out
  | fuel + 1 =>
    let (bT, st) := consume_terminator terminator st
    if bT then .ok (args, st)
    else
      pbind (param_step sp terminator fuel state st) fun r st =>
        let args := args ++ [r.1]
        if r.2.2 then finish_params terminator args st
        else
          let (bC, st) := consume_comma_sep terminator st
          if bC then parse_formal_params_loop sp terminator fuel r.2.1 args st
          else finish_params terminator args st

/-- Faithful to `Parser::parse_formal_params`: run the loop from the `Required`
ordering state with no parameters collected. -/
def parse_formal_params (sp : SubParsers) (fuel : Nat) (terminator : Option Punct)
    (st : PState) : PRes (List FormalParam × PState) :=
  parse_formal_params_loop sp terminator fuel ParamKind.Required [] st

/-! ## Flow control (`src/parser/flow_control.rs`) and blocks -/

/-- Faithful to `Parser::parse_then` (src/parser.rs:495-502). -/
def parse_then (st : PState) : PRes (Unit × PState) :=
  let (b, st) := consume_term st
  if b then
    let (_, st) := consume_reserved st Reserved.Then
    .ok ((), st)
  else expect_reserved st Reserved.Then

/-- Faithful to `Parser::parse_do` (src/parser.rs:504-510). -/
def parse_do (st : PState) : PRes (Unit × PState) :=
  let (b, st) := consume_term st
  if b then .ok ((), st)
  else expect_reserved st Reserved.Do

/-- Faithful to `Parser::parse_if_then` (flow_control.rs:16-33): condition,
`then`, body, optional `elsif` chain or `else` clause (an absent else-branch
becomes an empty statement sequence at the next token's location). -/
def parse_if_then (sp : SubParsers) : Nat → PState → PRes (Node × PState)
  | 0, _ => .out
  | fuel + 1, st =>
    let loc := st.prev_loc
    pbind (sp.parse_expr st) fun cond st =>
    pbind (parse_then st) fun _ st =>
    pbind (sp.parse_comp_stmt st) fun then_ st =>
    let (bEi, st) := consume_reserved st Reserved.Elsif
    if bEi then
      pbind (parse_if_then sp fuel st) fun else_ st =>
        .ok (Node.new_if cond then_ else_ loc, st)
    else
      let (bE, st) := consume_reserved st Reserved.Else
      if bE then
        pbind (sp.parse_comp_stmt st) fun else_ st =>
          .ok (Node.new_if cond then_ else_ loc, st)
      else
        .ok (Node.new_if cond then_ (Node.new_comp_stmt [] (locOf st)) loc, st)

/-- Faithful to `Parser::parse_if` (flow_control.rs:5-14). -/
def parse_if (sp : SubParsers) (fuel : Nat) (st : PState) : PRes (Node × PState) :=
  pbind (parse_if_then sp fuel st) fun node st =>
  pbind (expect_reserved st Reserved.End) fun _ st =>
  .ok (node, st)

/-- Faithful to `Parser::parse_unless` (flow_control.rs:35-51): note the final
`Node::new_if(cond, else_, then_, loc)` — the branches are swapped. -/
def parse_unless (sp : SubParsers) (st : PState) : PRes (Node × PState) :=
  let loc := st.prev_loc
  pbind (sp.parse_expr st) fun cond st =>
  pbind (parse_then st) fun _ st =>
  pbind (sp.parse_comp_stmt st) fun then_ st =>
  let (bE, st) := consume_reserved st Reserved.Else
  pbind (if bE then sp.parse_comp_stmt st
         else .ok (Node.new_comp_stmt [] (locOf st), st)) fun else_ st =>
  pbind (expect_reserved st Reserved.End) fun _ st =>
  .ok (Node.new_if cond else_ then_ loc, st)

/-- Faithful to `Parser::parse_while` (flow_control.rs:53-68): set the
suppress-do-block flag for the condition, restore it before `do`/body, and keep
a While marker on the loop stack for the whole construct. -/
def parse_while (sp : SubParsers) (is_while : Bool) (st : PState) : PRes (Node × PState) :=
  let old := st.suppress_do_block
  let st := { st with suppress_do_block := true }
  let loc := st.prev_loc
  let st := { st with loop_stack := LoopKind.While :: st.loop_stack }
  pbind (sp.parse_expr st) fun cond st =>
  let st := { st with suppress_do_block := old }
  pbind (parse_do st) fun _ st =>
  pbind (sp.parse_comp_stmt st) fun body st =>
  pbind (expect_reserved st Reserved.End) fun _ st =>
  match st.loop_stack with
  | [] => .out
  | _ :: lrest =>
    let st := { st with loop_stack := lrest }
    let loc := loc.merge st.prev_loc
    .ok (Node.new_while cond body is_while loc, st)

/-- The variable loop of `Parser::parse_for` (flow_control.rs:79-87): read
comma-separated loop variables, declaring each with `add_local_var_if_new`. -/
def parse_for_vars (fuel : Nat) (vars : List (Nat × String)) (st : PState) :
    PRes (List (Nat × String) × PState) :=
  match fuel with
  | 0 => .out
  | fuel + 1 =>
    pbind (expect_ident st) fun name st =>
    pbind (st.add_local_var_if_new name) fun outer st =>
    let vars := vars ++ [(outer, name)]
    let (b, st) := consume_punct st Punct.Comma
    if b then parse_for_vars fuel vars st else .ok (vars, st)

/-- The dummy-parameter loop of `Parser::parse_for` (flow_control.rs:96-101):
one required parameter named by index per loop variable. -/
def for_dummy_loop (loc : Loc) : Nat → Nat → List FormalParam → PState →
    PRes (List FormalParam × PState)
  | 0, _, acc, st => .ok (acc, st)
  | k + 1, i, acc, st =>
    let dummy := "_" ++ toString i
    pbind (new_param st dummy loc) fun _ st =>
    for_dummy_loop loc k (i + 1) (acc ++ [FormalParam.req_param dummy loc]) st

/-- Faithful to `Parser::parse_for` (flow_control.rs:70-118): loop variables are
declared through `add_local_var_if_new` before a For scope frame and a For loop
marker are pushed for the body; both are popped before the final `end`. -/
def parse_for (sp : SubParsers) (fuel : Nat) (st : PState) : PRes (Node × PState) :=
  pbind (parse_for_vars fuel [] st) fun vars st =>
  pbind (expect_reserved st Reserved.In) fun _ st =>
  pbind (sp.parse_expr st) fun iter st =>
  pbind (parse_do st) fun _ st =>
  let loc := st.prev_loc
  let st := { st with scope := LvarScope.new_for :: st.scope,
                      loop_stack := LoopKind.For :: st.loop_stack }
  pbind (sp.parse_comp_stmt st) fun body st =>
  pbind (for_dummy_loop loc vars.length 0 [] st) fun formal_params st =>
  match st.loop_stack with
  | [] => .out
  | _ :: lrest =>
    match st.scope with
    | [] => .out
    | top :: srest =>
      let st := { st with loop_stack := lrest, scope := srest }
      let lvar := top.lvar
      let loc := loc.merge st.prev_loc
      pbind (expect_reserved st Reserved.End) fun _ st =>
      .ok (Node.forNode vars iter formal_params body lvar (loc.merge st.prev_loc), st)

/-- Body of `Parser::parse_block` after the opener was recognized
(src/parser.rs:425-450): push a Block scope frame and a Block loop marker, parse
the optional parameter list and the body, pop both, and fold the frame's
collector into a lambda node. -/
def parse_block_body (sp : SubParsers) (fuel : Nat) (do_flag : Bool) (old_mul : Bool)
    (st : PState) : PRes (Option Node × PState) :=
  let loc := st.prev_loc
  let st := { st with scope := LvarScope.new_block none :: st.scope,
                      loop_stack := LoopKind.Block :: st.loop_stack }
  let (bOr, st) := consume_punct st Punct.BitOr
  pbind (if bOr then parse_formal_params sp fuel (some Punct.BitOr) st
         else
           let (_, st) := consume_punct st Punct.LOr
           .ok ([], st)) fun params st =>
  pbind (if do_flag then sp.parse_begin st
         else
           pbind (sp.parse_comp_stmt st) fun body st =>
           pbind (expect_punct st Punct.RBrace) fun _ st => .ok (body, st))
    fun body st =>
  match st.loop_stack with
  | [] => .out
  | _ :: lrest =>
    match st.scope with
    | [] => .out
    | top :: srest =>
      let st := { st with loop_stack := lrest, scope := srest }
      let lvar := top.lvar
      let loc := loc.merge st.prev_loc
      .ok (some (Node.new_lambda params body lvar loc),
           { st with suppress_mul_assign := old_mul })

/-- Faithful to `Parser::parse_block` (src/parser.rs:413-451): a `do … end`
block is recognized only when the suppress-do-block flag is off; otherwise a
`{ … }` block; with neither opener the result is `none` and the state is
untouched apart from the restored multiple-assignment flag. -/
def parse_block (sp : SubParsers) (fuel : Nat) (st : PState) :
    PRes (Option Node × PState) :=
  let old_mul := st.suppress_mul_assign
  let st := { st with suppress_mul_assign := false }
  let (bDo, st) :=
    if ¬st.suppress_do_block then consume_reserved_no_skip_line_term st Reserved.Do
    else (false, st)
  if bDo then parse_block_body sp fuel true old_mul st
  else
    let (bBr, st) := consume_punct_no_term st Punct.LBrace
    if bBr then parse_block_body sp fuel false old_mul st
    else .ok (none, { st with suppress_mul_assign := old_mul })

/-- The trailing comma-separated value loop of `parse_break_sub`
(flow_control.rs:190-192). -/
def break_args_loop (sp : SubParsers) : Nat → List Node → PState →
    PRes (List Node × PState)
  | 0, _, _ => .out
  | fuel + 1, vec, st =>
    let (b, st) := consume_punct_no_term st Punct.Comma
    if b then
      pbind (sp.parse_arg st) fun v st => break_args_loop sp fuel (vec ++ [v]) st
    else .ok (vec, st)

/-- Faithful to `Parser::parse_break_sub` (flow_control.rs:174-198): a statement
end (or `if`/`unless` modifier) makes the value a nil literal at the keyword's
location; otherwise one argument, or several collected into an array literal. -/
def parse_break_sub (sp : SubParsers) (fuel : Nat) (st : PState) :
    PRes ((Node × Loc) × PState) :=
  let loc := st.prev_loc
  let tok := peek_no_term st
  if tok.is_term || tok.kind = TokenKind.Reserved Reserved.Unless ||
      tok.kind = TokenKind.Reserved Reserved.If || tok.check_stmt_end then
    .ok ((Node.new_nil loc, loc), st)
  else
    pbind (sp.parse_arg st) fun val st =>
    let ret_loc := val.loc
    let (b, st) := consume_punct_no_term st Punct.Comma
    if b then
      pbind (sp.parse_arg st) fun v2 st =>
      pbind (break_args_loop sp fuel [val, v2] st) fun vec st =>
      .ok ((Node.new_array vec ret_loc, loc), st)
    else .ok ((val, loc), st)

/-- Faithful to `Parser::parse_break` (flow_control.rs:152-161): fail with
"Invalid break" at the keyword's location (`prev_loc`) unless breakable. -/
def parse_break (sp : SubParsers) (fuel : Nat) (st : PState) : PRes (Node × PState) :=
  if ¬st.is_breakable then
    .err ⟨ParseErrKind.SyntaxError "Invalid break", st.prev_loc⟩
  else
    pbind (parse_break_sub sp fuel st) fun r st => .ok (Node.new_break r.1 r.2, st)

/-- Faithful to `Parser::parse_next` (flow_control.rs:163-172). -/
def parse_next (sp : SubParsers) (fuel : Nat) (st : PState) : PRes (Node × PState) :=
  if ¬st.is_breakable then
    .err ⟨ParseErrKind.SyntaxError "Invalid next", st.prev_loc⟩
  else
    pbind (parse_break_sub sp fuel st) fun r st => .ok (Node.new_next r.1 r.2, st)

/-! ## Concrete spec-modelled sub-parsers

`expression.rs` is absent from src/.  For concrete runs the expression
sub-grammar is modelled from the spec as its restriction to one-token literal
and identifier expressions, and the statement sequence as literal statements
separated by terminators up to a clause-ending token — enough to drive every
construct embedded above on concrete programs. -/

/-- Modelled from the spec: `parse_arg` restricted to one-token expressions
(integer literal or identifier). -/
def parse_arg_model (st : PState) : PRes (Node × PState) :=
  match get st with
  | .ok (t, st') =>
    match t.kind with
    | TokenKind.IntLit n => .ok (Node.integer n t.loc, st')
    | TokenKind.Ident s => .ok (Node.ident s t.loc, st')
    | _ => .err (error_unexpected t.loc "Expect expression.")
  | .err e => .err e
  | .out => .out

/-- Modelled from the spec: tokens that end a statement sequence (clause-ending
keywords, a closing brace, end of file). -/
def stmt_stopper (t : Token) : Bool :=
  t.is_eof ||
  (match t.kind with
   | TokenKind.Reserved r =>
     r = Reserved.End || r = Reserved.Else || r = Reserved.Elsif || r = Reserved.When
   | TokenKind.Punct p => p = Punct.RBrace
   | _ => false)

/-- Modelled from the spec: the statement-sequence loop — skip terminators, stop
before a clause-ending token, otherwise read one literal statement. -/
def parse_comp_stmt_loop : Nat → List Node → PState → PRes (Node × PState)
  | 0, _, _ => .out
  | fuel + 1, stmts, st =>
    let (_, st) := consume_term st
    let t := peek_no_term st
    if stmt_stopper t then .ok (Node.new_comp_stmt stmts t.loc, st)
    else pbind (parse_arg_model st) fun n st => parse_comp_stmt_loop fuel (stmts ++ [n]) st

/-- Modelled from the spec: `parse_comp_stmt` over the restricted statement
grammar, self-fueled by the token count. -/
def parse_comp_stmt_model (st : PState) : PRes (Node × PState) :=
  parse_comp_stmt_loop (st.tokens.length + 1) [] st

/-- Modelled from the spec: `parse_begin` for a `do … end` block body — a
statement sequence closed by `end`. -/
def parse_begin_model (st : PState) : PRes (Node × PState) :=
  pbind (parse_comp_stmt_model st) fun n st =>
  pbind (expect_reserved st Reserved.End) fun _ st =>
  .ok (n, st)

/-- The concrete sub-parser bundle over the restricted grammar. -/
def miniSub : SubParsers :=
  ⟨parse_arg_model, parse_comp_stmt_model, parse_arg_model, parse_arg_model,
   parse_begin_model⟩

/-- Instrumentation sub-parser: consumes nothing and returns an integer literal
recording the suppress-do-block flag it was invoked under (1 when set, 0 when
not).  Used to observe which flag value a grammar position is parsed with. -/
def probe_flag (st : PState) : PRes (Node × PState) :=
  .ok (Node.integer (if st.suppress_do_block then 1 else 0) st.prev_loc, st)

/-- `miniSub` with the expression and statement positions replaced by the
flag-recording probe. -/
def spProbe : SubParsers :=
  { miniSub with parse_expr := probe_flag, parse_comp_stmt := probe_flag }

/-- The condition sub-node of a parsed `if`/`unless` result. -/
def cond_of_if (r : PRes (Node × PState)) : Option Node :=
  match r with
  | .ok (Node.ifNode c _ _ _, _) => some c
  | _ => none

/-- Condition and body sub-nodes of a parsed `while` result. -/
def parts_of_while (r : PRes (Node × PState)) : Option (Node × Node) :=
  match r with
  | .ok (Node.whileNode c b _ _, _) => some (c, b)
  | _ => none

/-- The iterator sub-node of a parsed `for` result. -/
def iter_of_for (r : PRes (Node × PState)) : Option Node :=
  match r with
  | .ok (Node.forNode _ iter _ _ _ _, _) => some iter
  | _ => none

/-- The node of a successful parse result. -/
def node_of (r : PRes (Node × PState)) : Option Node :=
  match r with
  | .ok (n, _) => some n
  | _ => none

/-! ## Resolution vocabulary used by the theorems -/

/-- Transparent frame kinds: resolution continues past Block and For frames. -/
def ScopeKind.transparent : ScopeKind → Bool
  | .Block => true
  | .For => true
  | _ => false

/-- Whether a frame binds a name. -/
def bindsName (f : LvarScope) (id : String) : Bool := (f.lvar.get_lvarid id).isSome

/-- Number of Block frames in a list (the block-nesting depth contributed by it). -/
def blockCount (l : List LvarScope) : Nat :=
  l.countP fun f => decide (f.kind = ScopeKind.Block)

/-! ## Supporting lemmas -/

theorem tableLookup_nil (name : String) : tableLookup [] name = none := rfl

theorem tableLookup_cons (a : String) (t : List String) (name : String) :
    tableLookup (a :: t) name =
      if a = name then some 0 else (tableLookup t name).map (· + 1) := rfl

theorem tableLookup_append_of_none :
    ∀ (t : List String) (name : String), tableLookup t name = none →
      tableLookup (t ++ [name]) name = some t.length
  | [], name, _ => by simp [tableLookup]
  | a :: t, name, h => by
    rw [List.cons_append, tableLookup_cons]
    rw [tableLookup_cons] at h
    by_cases ha : a = name
    · simp [ha] at h
    · simp only [ha, if_false] at h ⊢
      cases htl : tableLookup t name with
      | some v => rw [htl] at h; simp at h
      | none =>
        rw [tableLookup_append_of_none t name htl]
        simp

theorem get_lvarid_insert_self (c : LvarCollector) (name : String)
    (h : c.get_lvarid name = none) :
    ((c.insert name).2).get_lvarid name = some c.table.length := by
  unfold LvarCollector.get_lvarid at h
  unfold LvarCollector.insert
  rw [h]
  exact tableLookup_append_of_none c.table name h

theorem get_lvarid_insert_new_self (c : LvarCollector) (name : String) (p : Nat × LvarCollector)
    (h : c.insert_new name = some p) : p.2.get_lvarid name = some c.table.length := by
  unfold LvarCollector.insert_new at h
  cases htl : tableLookup c.table name with
  | some v => rw [htl] at h; exact absurd h (by simp)
  | none =>
    rw [htl] at h
    simp only [Option.some.injEq] at h
    subst h
    exact tableLookup_append_of_none c.table name htl

theorem blockCount_cons (f : LvarScope) (l : List LvarScope) :
    blockCount (f :: l) =
      blockCount l + (if f.kind = ScopeKind.Block then 1 else 0) := by
  simp [blockCount, List.countP_cons]

theorem is_local_var_scope_cons (c : LvarScope) (rest : List LvarScope) (id : String)
    (outer : Nat) :
    is_local_var_scope (c :: rest) id outer =
      if (c.lvar.get_lvarid id).isSome then .found outer
      else
        match c.kind with
        | .Block => is_local_var_scope rest id (outer + 1)
        | .For => is_local_var_scope rest id outer
        | _ => .stopped := rfl

theorem extern_walk_cons (a : ExternFrame) (rest : List ExternFrame) (id : String)
    (outer : Nat) :
    extern_walk (a :: rest) id outer =
      if (a.get_lvarid id).isSome then some outer
      else extern_walk rest id (outer + 1) := rfl

theorem is_local_var_scope_transparent_front :
    ∀ (pre l : List LvarScope) (id : String) (outer : Nat),
      (∀ f ∈ pre, f.kind.transparent = true ∧ bindsName f id = false) →
      is_local_var_scope (pre ++ l) id outer = is_local_var_scope l id (outer + blockCount pre)
  | [], l, id, outer, _ => by simp [blockCount]
  | f :: pre, l, id, outer, h => by
    have hf := h f (by simp)
    have hrest : ∀ g ∈ pre, g.kind.transparent = true ∧ bindsName g id = false :=
      fun g hg => h g (by simp [hg])
    have hbind : (f.lvar.get_lvarid id).isSome = false := hf.2
    rw [List.cons_append, is_local_var_scope_cons, hbind]
    simp only [Bool.false_eq_true, if_false]
    cases hk : f.kind with
    | Block =>
      rw [is_local_var_scope_transparent_front pre l id (outer + 1) hrest]
      have h2 : blockCount (f :: pre) = blockCount pre + 1 := by
        simp [blockCount_cons, hk]
      have h3 : outer + (blockCount pre + 1) = outer + 1 + blockCount pre := by omega
      rw [h2, h3]
    | For =>
      rw [is_local_var_scope_transparent_front pre l id outer hrest]
      have h2 : blockCount (f :: pre) = blockCount pre := by
        simp [blockCount_cons, hk]
      rw [h2]
    | Eval => rw [hk] at hf; exact absurd hf.1 (by simp [ScopeKind.transparent])
    | Class => rw [hk] at hf; exact absurd hf.1 (by simp [ScopeKind.transparent])
    | Method => rw [hk] at hf; exact absurd hf.1 (by simp [ScopeKind.transparent])

theorem extern_walk_miss_front :
    ∀ (pre l : List ExternFrame) (id : String) (outer : Nat),
      (∀ a ∈ pre, (a.get_lvarid id).isSome = false) →
      extern_walk (pre ++ l) id outer = extern_walk l id (outer + pre.length)
  | [], l, id, outer, _ => by simp
  | a :: pre, l, id, outer, h => by
    have ha := h a (by simp)
    rw [List.cons_append, extern_walk_cons, ha]
    simp only [Bool.false_eq_true, if_false]
    rw [extern_walk_miss_front pre l id (outer + 1) (fun g hg => h g (by simp [hg]))]
    have h2 : (a :: pre).length = pre.length + 1 := by simp
    rw [h2]
    congr 1
    omega

theorem is_local_var_exhausted (scope : List LvarScope) (ext : List ExternFrame)
    (id : String)
    (hsc : ∀ f ∈ scope, f.kind.transparent = true ∧ bindsName f id = false) :
    is_local_var scope ext id = extern_walk ext id (blockCount scope) := by
  unfold is_local_var
  have h := is_local_var_scope_transparent_front scope [] id 0 hsc
  rw [List.append_nil] at h
  rw [h]
  show extern_walk ext id (0 + blockCount scope) = _
  congr 1
  omega

/-! ## C1 — identifier resolution walk -/

/-- C1: `is_local_var` walks frames innermost-to-outermost.  (i) A name bound in
a frame reached through transparent non-binding frames resolves to the number of
Block frames crossed (For frames are transparent and do not increment the
depth).  (ii) A Method/Class/Eval frame that does not bind the name terminates
the search with no result, whatever lies behind it (extern chain included).
(iii) When the whole stack is transparent and non-binding, the external
enclosing-context chain is consulted the same way, incrementing the depth per
level.  (iv) When the chain misses too, resolution fails. -/
theorem c1_is_local_var_depth :
    (∀ (pre : List LvarScope) (c : LvarScope) (post : List LvarScope)
       (ext : List ExternFrame) (id : String),
       (∀ f ∈ pre, f.kind.transparent = true ∧ bindsName f id = false) →
       bindsName c id = true →
       is_local_var (pre ++ c :: post) ext id = some (blockCount pre)) ∧
    (∀ (pre : List LvarScope) (c : LvarScope) (post : List LvarScope)
       (ext : List ExternFrame) (id : String),
       (∀ f ∈ pre, f.kind.transparent = true ∧ bindsName f id = false) →
       c.kind.transparent = false → bindsName c id = false →
       is_local_var (pre ++ c :: post) ext id = none) ∧
    (∀ (scope : List LvarScope) (epre : List ExternFrame) (e : ExternFrame)
       (epost : List ExternFrame) (id : String),
       (∀ f ∈ scope, f.kind.transparent = true ∧ bindsName f id = false) →
       (∀ a ∈ epre, (a.get_lvarid id).isSome = false) →
       (e.get_lvarid id).isSome = true →
       is_local_var scope (epre ++ e :: epost) id =
         some (blockCount scope + epre.length)) ∧
    (∀ (scope : List LvarScope) (ext : List ExternFrame) (id : String),
       (∀ f ∈ scope, f.kind.transparent = true ∧ bindsName f id = false) →
       (∀ a ∈ ext, (a.get_lvarid id).isSome = false) →
       is_local_var scope ext id = none) := by
  refine ⟨?_, ?_, ?_, ?_⟩
  · intro pre c post ext id hpre hc
    have hc' : (c.lvar.get_lvarid id).isSome = true := hc
    unfold is_local_var
    rw [is_local_var_scope_transparent_front pre (c :: post) id 0 hpre,
        is_local_var_scope_cons, hc']
    simp
  · intro pre c post ext id hpre hck hc
    have hc' : (c.lvar.get_lvarid id).isSome = false := hc
    unfold is_local_var
    rw [is_local_var_scope_transparent_front pre (c :: post) id 0 hpre,
        is_local_var_scope_cons, hc']
    simp only [Bool.false_eq_true, if_false]
    cases hk : c.kind with
    | Block => rw [hk] at hck; exact absurd hck (by simp [ScopeKind.transparent])
    | For => rw [hk] at hck; exact absurd hck (by simp [ScopeKind.transparent])
    | Eval => rfl
    | Class => rfl
    | Method => rfl
  · intro scope epre e epost id hsc hpre he
    have he' : (e.get_lvarid id).isSome = true := he
    rw [is_local_var_exhausted scope _ id hsc,
        extern_walk_miss_front epre (e :: epost) id _ hpre, extern_walk_cons, he']
    simp
  · intro scope ext id hsc hext
    rw [is_local_var_exhausted scope ext id hsc]
    have : ∀ (l : List ExternFrame) (outer : Nat),
        (∀ a ∈ l, (a.get_lvarid id).isSome = false) → extern_walk l id outer = none := by
      intro l
      induction l with
      | nil => intro outer _; rfl
      | cons a l ih =>
        intro outer h
        rw [extern_walk_cons, h a (by simp)]
        simp only [Bool.false_eq_true, if_false]
        exact ih (outer + 1) (fun g hg => h g (by simp [hg]))
    exact this ext _ hext

/-- Witness for C1 at a concrete stack: `x` bound two Block frames down behind a
transparent For frame resolves at depth 1 by clause (i); with the bottom frames
transparent and non-binding, a name found on the second extern level resolves at
stack-blocks + 1 by clause (iii). -/
theorem c1_is_local_var_depth_witness :
    is_local_var
      [⟨ScopeKind.Block, LvarCollector.new⟩, ⟨ScopeKind.For, LvarCollector.new⟩,
       ⟨ScopeKind.Block, { LvarCollector.new with table := ["x"] }⟩] [] "x" = some 1 ∧
    is_local_var [⟨ScopeKind.Block, LvarCollector.new⟩]
      [ExternFrame.dummy, ⟨["y"]⟩] "y" = some 2 := by
  constructor
  · exact c1_is_local_var_depth.1
      [⟨ScopeKind.Block, LvarCollector.new⟩, ⟨ScopeKind.For, LvarCollector.new⟩]
      ⟨ScopeKind.Block, { LvarCollector.new with table := ["x"] }⟩ [] [] "x"
      (by decide) (by decide)
  · exact c1_is_local_var_depth.2.2.1 [⟨ScopeKind.Block, LvarCollector.new⟩]
      [ExternFrame.dummy] ⟨["y"]⟩ [] "y" (by decide) (by decide) (by decide)

/-! ## C4 — duplicate parameters -/

/-- C4: a second declaration of the same parameter name in the same frame fails
with the duplicate-parameter error at the offending location; success and
failure of `new_param` depend only on the innermost frame (so the same name in
two different frames is fine); and a frame accepts at most one keyword-rest, one
block, and one delegate parameter — the second insertion of each fails with the
duplicate-parameter error. -/
theorem c4_duplicate_param :
    (∀ (st : PState) (name : String) (loc loc' : Loc) (i : Nat) (st₁ : PState),
       new_param st name loc = .ok (i, st₁) →
       new_param st₁ name loc' = .err (error_unexpected loc' "Duplicated argument name.")) ∧
    (∀ (st : PState) (c : LvarScope) (rest : List LvarScope) (name : String) (loc : Loc),
       st.scope = c :: rest →
       (c.lvar.get_lvarid name = none →
          new_param st name loc =
            .ok (c.lvar.table.length,
                 { st with scope :=
                     { c with lvar :=
                         { c.lvar with table := c.lvar.table ++ [name] } } :: rest })) ∧
       (∀ i, c.lvar.get_lvarid name = some i →
          new_param st name loc = .err (error_unexpected loc "Duplicated argument name."))) ∧
    (∀ (st : PState) (name : String) (loc : Loc) (st₁ : PState) (name' : String) (loc' : Loc),
       new_kwrest_param st name loc = .ok ((), st₁) →
       new_kwrest_param st₁ name' loc' =
         .err (error_unexpected loc' "Duplicated argument name.")) ∧
    (∀ (st : PState) (name : String) (loc : Loc) (st₁ : PState) (name' : String) (loc' : Loc),
       new_block_param st name loc = .ok ((), st₁) →
       new_block_param st₁ name' loc' =
         .err (error_unexpected loc' "Duplicated argument name.")) ∧
    (∀ (st : PState) (loc : Loc) (st₁ : PState) (loc' : Loc),
       new_delegate_param st loc = .ok ((), st₁) →
       new_delegate_param st₁ loc' =
         .err (error_unexpected loc' "Duplicated argument name.")) := by
  refine ⟨?_, ?_, ?_, ?_, ?_⟩
  · intro st name loc loc' i st₁ h
    cases hs : st.scope with
    | nil => simp only [new_param, hs] at h; exact PRes.noConfusion h
    | cons c rest =>
      simp only [new_param, hs] at h
      cases hi : c.lvar.insert_new name with
      | none => simp only [hi] at h; exact PRes.noConfusion h
      | some p =>
        simp only [hi, PRes.ok.injEq, Prod.mk.injEq] at h
        have hbound := get_lvarid_insert_new_self c.lvar name p hi
        have hbound' : tableLookup p.2.table name = some c.lvar.table.length := hbound
        have hs₁ : st₁.scope = { c with lvar := p.2 } :: rest := by rw [← h.2]
        simp only [new_param, hs₁, LvarCollector.insert_new, hbound']
  · intro st c rest name loc hs
    constructor
    · intro hnone
      have hnone' : tableLookup c.lvar.table name = none := hnone
      simp only [new_param, hs, LvarCollector.insert_new, hnone']
    · intro i hsome
      have hsome' : tableLookup c.lvar.table name = some i := hsome
      simp only [new_param, hs, LvarCollector.insert_new, hsome']
  · intro st name loc st₁ name' loc' h
    cases hs : st.scope with
    | nil => simp only [new_kwrest_param, hs] at h; exact PRes.noConfusion h
    | cons c rest =>
      simp only [new_kwrest_param, hs] at h
      cases hi : c.lvar.insert_kwrest_param name with
      | none => simp only [hi] at h; exact PRes.noConfusion h
      | some p =>
        simp only [hi, PRes.ok.injEq, Prod.mk.injEq, true_and] at h
        have hset : p.2.kwrest_param.isSome = true := by
          unfold LvarCollector.insert_kwrest_param at hi
          by_cases hk : c.lvar.kwrest_param.isSome
          · rw [if_pos hk] at hi; exact absurd hi (by simp)
          · rw [if_neg hk] at hi
            cases hn : c.lvar.insert_new name with
            | none => rw [hn] at hi; exact absurd hi (by simp)
            | some q =>
              rw [hn] at hi
              simp only [Option.map_some', Option.some.injEq] at hi
              rw [← hi]
              simp
        have hs₁ : st₁.scope = { c with lvar := p.2 } :: rest := by rw [← h]
        simp only [new_kwrest_param, hs₁, LvarCollector.insert_kwrest_param, hset,
          if_true]
  · intro st name loc st₁ name' loc' h
    cases hs : st.scope with
    | nil => simp only [new_block_param, hs] at h; exact PRes.noConfusion h
    | cons c rest =>
      simp only [new_block_param, hs] at h
      cases hi : c.lvar.insert_block_param name with
      | none => simp only [hi] at h; exact PRes.noConfusion h
      | some p =>
        simp only [hi, PRes.ok.injEq, Prod.mk.injEq, true_and] at h
        have hset : p.2.block_param.isSome = true := by
          unfold LvarCollector.insert_block_param at hi
          by_cases hk : c.lvar.block_param.isSome
          · rw [if_pos hk] at hi; exact absurd hi (by simp)
          · rw [if_neg hk] at hi
            cases hn : c.lvar.insert_new name with
            | none => rw [hn] at hi; exact absurd hi (by simp)
            | some q =>
              rw [hn] at hi
              simp only [Option.map_some', Option.some.injEq] at hi
              rw [← hi]
              simp
        have hs₁ : st₁.scope = { c with lvar := p.2 } :: rest := by rw [← h]
        simp only [new_block_param, hs₁, LvarCollector.insert_block_param, hset,
          if_true]
  · intro st loc st₁ loc' h
    cases hs : st.scope with
    | nil => simp only [new_delegate_param, hs] at h; exact PRes.noConfusion h
    | cons c rest =>
      simp only [new_delegate_param, hs] at h
      cases hi : c.lvar.insert_delegate_param with
      | none => simp only [hi] at h; exact PRes.noConfusion h
      | some p =>
        simp only [hi, PRes.ok.injEq, Prod.mk.injEq, true_and] at h
        have hset : p.2.delegate_param.isSome = true := by
          unfold LvarCollector.insert_delegate_param at hi
          by_cases hk : c.lvar.delegate_param.isSome
          · rw [if_pos hk] at hi; exact absurd hi (by simp)
          · rw [if_neg hk] at hi
            cases hn : c.lvar.insert_new "..." with
            | none => rw [hn] at hi; exact absurd hi (by simp)
            | some q =>
              rw [hn] at hi
              simp only [Option.map_some', Option.some.injEq] at hi
              rw [← hi]
              simp
        have hs₁ : st₁.scope = { c with lvar := p.2 } :: rest := by rw [← h]
        simp only [new_delegate_param, hs₁, LvarCollector.insert_delegate_param, hset,
          if_true]

/-- Witness for C4: declaring `x` twice in one method frame — the first
declaration succeeds, the second fails with the duplicate error at its own
location; and in a fresh frame (a different method definition) `x` succeeds
again. -/
theorem c4_duplicate_param_witness :
    (new_param { initState [] with scope := [LvarScope.new_method] } "x" ⟨6, 6⟩ =
      .ok (0, { initState [] with
                scope := [⟨ScopeKind.Method, { LvarCollector.new with table := ["x"] }⟩] })) ∧
    (new_param { initState [] with
                 scope := [⟨ScopeKind.Method, { LvarCollector.new with table := ["x"] }⟩] }
       "x" ⟨9, 9⟩ = .err (error_unexpected ⟨9, 9⟩ "Duplicated argument name.")) ∧
    (new_param { initState [] with scope := [LvarScope.new_method] } "x" ⟨20, 20⟩ =
      .ok (0, { initState [] with
                scope := [⟨ScopeKind.Method, { LvarCollector.new with table := ["x"] }⟩] })) := by
  refine ⟨rfl, ?_, rfl⟩
  exact c4_duplicate_param.1
    { initState [] with scope := [LvarScope.new_method] } "x" ⟨6, 6⟩ ⟨9, 9⟩ 0
    { initState [] with
      scope := [⟨ScopeKind.Method, { LvarCollector.new with table := ["x"] }⟩] } rfl

/-! ## C5 — idempotent local-variable declaration -/

theorem insert_walk_cons (f : LvarScope) (scope : List LvarScope) (name : String) :
    insert_walk (f :: scope) name =
      match f.kind with
      | .For => (insert_walk scope name).map (f :: ·)
      | _ => some ({ f with lvar := (f.lvar.insert name).2 } :: scope) := rfl

theorem insert_walk_for_front :
    ∀ (fors : List LvarScope) (c : LvarScope) (rest : List LvarScope) (name : String),
      (∀ f ∈ fors, f.kind = ScopeKind.For) → c.kind ≠ ScopeKind.For →
      insert_walk (fors ++ c :: rest) name =
        some (fors ++ { c with lvar := (c.lvar.insert name).2 } :: rest)
  | [], c, rest, name, _, hc => by
    rw [List.nil_append, List.nil_append, insert_walk_cons]
    cases hk : c.kind with
    | For => exact absurd hk hc
    | Eval => rfl
    | Class => rfl
    | Method => rfl
    | Block => rfl
  | f :: fors, c, rest, name, hfor, hc => by
    rw [List.cons_append, insert_walk_cons, hfor f (by simp),
        insert_walk_for_front fors c rest name (fun g hg => hfor g (by simp [hg])) hc]
    rfl

theorem insert_walk_spec :
    ∀ (scope : List LvarScope) (name : String) (s' : List LvarScope),
      insert_walk scope name = some s' →
      ∃ fors c rest, scope = fors ++ c :: rest ∧ (∀ f ∈ fors, f.kind = ScopeKind.For) ∧
        c.kind ≠ ScopeKind.For ∧
        s' = fors ++ { c with lvar := (c.lvar.insert name).2 } :: rest
  | [], name, s', h => by simp [insert_walk] at h
  | f :: scope, name, s', h => by
    rw [insert_walk_cons] at h
    cases hk : f.kind with
    | For =>
      rw [hk] at h
      simp only [Option.map_eq_some'] at h
      obtain ⟨s'', hs'', hmap⟩ := h
      obtain ⟨fors, c, rest, hdec, hfor, hc, hres⟩ := insert_walk_spec scope name s'' hs''
      exact ⟨f :: fors, c, rest, by rw [hdec, List.cons_append],
        fun g hg => by
          rcases List.mem_cons.mp hg with hg1 | hg2
          · rw [hg1]; exact hk
          · exact hfor g hg2,
        hc, by rw [← hmap, hres, List.cons_append]⟩
    | Eval =>
      rw [hk] at h
      simp only [Option.some.injEq] at h
      exact ⟨[], f, scope, rfl, by simp, by rw [hk]; simp,
        by rw [List.nil_append, hk]; exact h.symm⟩
    | Class =>
      rw [hk] at h
      simp only [Option.some.injEq] at h
      exact ⟨[], f, scope, rfl, by simp, by rw [hk]; simp,
        by rw [List.nil_append, hk]; exact h.symm⟩
    | Method =>
      rw [hk] at h
      simp only [Option.some.injEq] at h
      exact ⟨[], f, scope, rfl, by simp, by rw [hk]; simp,
        by rw [List.nil_append, hk]; exact h.symm⟩
    | Block =>
      rw [hk] at h
      simp only [Option.some.injEq] at h
      exact ⟨[], f, scope, rfl, by simp, by rw [hk]; simp,
        by rw [List.nil_append, hk]; exact h.symm⟩

theorem is_local_var_cons_for (f : LvarScope) (tail : List LvarScope)
    (ext : List ExternFrame) (name : String) (hk : f.kind = ScopeKind.For)
    (hb : bindsName f name = false) :
    is_local_var (f :: tail) ext name = is_local_var tail ext name := by
  unfold is_local_var
  have h := is_local_var_scope_transparent_front [f] tail name 0
    (by
      intro g hg
      simp only [List.mem_singleton] at hg
      subst hg
      exact ⟨by simp [ScopeKind.transparent, hk], hb⟩)
  rw [List.singleton_append] at h
  rw [h]
  have h2 : blockCount [f] = 0 := by
    simp [blockCount, List.countP_cons, hk]
  rw [h2]

theorem blockCount_all_for (fors : List LvarScope)
    (h : ∀ f ∈ fors, f.kind = ScopeKind.For) : blockCount fors = 0 := by
  unfold blockCount
  rw [List.countP_eq_zero]
  intro f hf
  rw [h f hf]
  decide

theorem for_prefix_not_bound :
    ∀ (fors : List LvarScope) (c : LvarScope) (rest : List LvarScope)
      (ext : List ExternFrame) (name : String),
      (∀ f ∈ fors, f.kind = ScopeKind.For) →
      is_local_var (fors ++ c :: rest) ext name = none →
      (∀ f ∈ fors, bindsName f name = false) ∧ bindsName c name = false
  | [], c, rest, ext, name, _, h => by
    refine ⟨fun f hf => by simp at hf, ?_⟩
    cases hbn : bindsName c name with
    | false => rfl
    | true =>
      exfalso
      have hh : (c.lvar.get_lvarid name).isSome = true := hbn
      rw [List.nil_append] at h
      unfold is_local_var at h
      rw [is_local_var_scope_cons, hh] at h
      simp at h
  | f :: fors, c, rest, ext, name, hfor, h => by
    have hkf := hfor f (by simp)
    cases hbn : bindsName f name with
    | true =>
      exfalso
      have hh : (f.lvar.get_lvarid name).isSome = true := hbn
      rw [List.cons_append] at h
      unfold is_local_var at h
      rw [is_local_var_scope_cons, hh] at h
      simp at h
    | false =>
      rw [List.cons_append, is_local_var_cons_for f _ ext name hkf hbn] at h
      have ih := for_prefix_not_bound fors c rest ext name
        (fun g hg => hfor g (by simp [hg])) h
      refine ⟨fun g hg => ?_, ih.2⟩
      rcases List.mem_cons.mp hg with hg1 | hg2
      · rw [hg1]; exact hbn
      · exact ih.1 g hg2

/-- C5: declaring an ordinary local variable is idempotent.  (i) A name that
resolves through the scope chain is returned at its existing depth with the
scope stack unchanged (no insertion, no error).  (ii) A name that does not
resolve is inserted into the innermost frame whose kind is not For and reported
at depth 0.  (iii) Running the declaration again yields the same slot and the
very same stack — `x = 1; x = 2` creates one slot for `x`. -/
theorem c5_add_local_var_idempotent :
    (∀ (scope : List LvarScope) (ext : List ExternFrame) (name : String) (d : Nat),
       is_local_var scope ext name = some d →
       add_local_var_if_new scope ext name = some (d, scope)) ∧
    (∀ (fors : List LvarScope) (c : LvarScope) (rest : List LvarScope)
       (ext : List ExternFrame) (name : String),
       (∀ f ∈ fors, f.kind = ScopeKind.For) → c.kind ≠ ScopeKind.For →
       is_local_var (fors ++ c :: rest) ext name = none →
       add_local_var_if_new (fors ++ c :: rest) ext name =
         some (0, fors ++ { c with lvar := (c.lvar.insert name).2 } :: rest)) ∧
    (∀ (scope : List LvarScope) (ext : List ExternFrame) (name : String) (k : Nat)
       (s₁ : List LvarScope),
       add_local_var_if_new scope ext name = some (k, s₁) →
       add_local_var_if_new s₁ ext name = some (k, s₁)) := by
  refine ⟨?_, ?_, ?_⟩
  · intro scope ext name d h
    unfold add_local_var_if_new
    rw [h]
  · intro fors c rest ext name hfor hc h
    unfold add_local_var_if_new
    rw [h, insert_walk_for_front fors c rest name hfor hc]
    rfl
  · intro scope ext name k s₁ h
    unfold add_local_var_if_new at h
    cases h1 : is_local_var scope ext name with
    | some d =>
      rw [h1] at h
      simp only [Option.some.injEq, Prod.mk.injEq] at h
      unfold add_local_var_if_new
      rw [← h.2, h1, h.1]
    | none =>
      rw [h1] at h
      cases hw : insert_walk scope name with
      | none => rw [hw] at h; exact absurd h (by simp)
      | some s' =>
        rw [hw] at h
        simp only [Option.map_some', Option.some.injEq, Prod.mk.injEq] at h
        obtain ⟨fors, c, rest, hdec, hfor, hck, hres⟩ := insert_walk_spec scope name s' hw
        rw [hdec] at h1
        have hnb := for_prefix_not_bound fors c rest ext name hfor h1
        have hcnone : c.lvar.get_lvarid name = none := by
          have := hnb.2
          unfold bindsName at this
          exact Option.not_isSome_iff_eq_none.mp (by rw [this]; simp)
        have hbinds : bindsName { c with lvar := (c.lvar.insert name).2 } name = true := by
          unfold bindsName
          show ((c.lvar.insert name).2.get_lvarid name).isSome = true
          rw [get_lvarid_insert_self c.lvar name hcnone]
          rfl
        have hresolve : is_local_var s₁ ext name = some 0 := by
          rw [← h.2, hres]
          unfold is_local_var
          rw [is_local_var_scope_transparent_front fors _ name 0
            (fun g hg => ⟨by rw [hfor g hg]; rfl, hnb.1 g hg⟩)]
          rw [is_local_var_scope_cons,
              show ((({ c with lvar := (c.lvar.insert name).2 } : LvarScope).lvar.get_lvarid
                name).isSome) = true from hbinds]
          rw [blockCount_all_for fors hfor]
          rfl
        unfold add_local_var_if_new
        rw [hresolve, ← h.1]

/-- Witness for C5: in an Eval frame already holding `x`, re-declaration resolves
to depth 0 and leaves the stack untouched (clause i via clause iii chaining);
a fresh name `y` under a For frame is inserted into the Eval frame below it
(clause ii). -/
theorem c5_add_local_var_idempotent_witness :
    (add_local_var_if_new [⟨ScopeKind.Eval, { LvarCollector.new with table := ["x"] }⟩]
       [] "x" = some (0, [⟨ScopeKind.Eval, { LvarCollector.new with table := ["x"] }⟩])) ∧
    (add_local_var_if_new [LvarScope.new_for, LvarScope.new_eval none] [] "y" =
      some (0, [LvarScope.new_for,
                ⟨ScopeKind.Eval, { LvarCollector.new with table := ["y"] }⟩])) := by
  constructor
  · exact c5_add_local_var_idempotent.1
      [⟨ScopeKind.Eval, { LvarCollector.new with table := ["x"] }⟩] [] "x" 0 (by decide)
  · exact c5_add_local_var_idempotent.2.1 [LvarScope.new_for] (LvarScope.new_eval none)
      [] [] "y" (by decide) (by decide) (by decide)

/-! ## C8 — break/next/redo legality and the loop stack -/

/-- Counterexample to C8 as stated.  The claim says break is illegal exactly when
the innermost non-Block marker (skipping Block markers) is Top.  In the state of
a block written at top level the loop stack is `[Block, Top]` (innermost first):
its innermost non-Block marker IS Top, yet `is_breakable` is true and
`parse_break` succeeds — the code checks only the innermost marker, and a Block
marker makes break legal (the crate's own test parses `[1].each { break }`). -/
theorem c8_innermost_non_block_counterexample :
    innermost_non_block [LoopKind.Block, LoopKind.Top] = some LoopKind.Top ∧
    ({ initState [⟨TokenKind.Punct Punct.RBrace, ⟨10, 10⟩⟩] with
       loop_stack := [LoopKind.Block, LoopKind.Top] } : PState).is_breakable = true ∧
    parse_break miniSub 1
      { initState [⟨TokenKind.Punct Punct.RBrace, ⟨10, 10⟩⟩] with
        loop_stack := [LoopKind.Block, LoopKind.Top] } =
      .ok (Node.new_break (Node.new_nil ⟨0, 0⟩) ⟨0, 0⟩,
           { initState [⟨TokenKind.Punct Punct.RBrace, ⟨10, 10⟩⟩] with
             loop_stack := [LoopKind.Block, LoopKind.Top] }) :=
  ⟨rfl, rfl, rfl⟩

/-- C8 (amended): `is_breakable` is decided purely by the loop stack, and break
is illegal exactly when the innermost marker itself — the stack's head, without
skipping Block markers — is Top; a Block marker on top makes break legal. -/
theorem c8_is_breakable_char :
    ∀ st st' : PState,
      (st.is_breakable = false ↔ st.loop_stack.head? = some LoopKind.Top) ∧
      (st.loop_stack = st'.loop_stack → st.is_breakable = st'.is_breakable) := by
  intro st st'
  constructor
  · cases h : st.loop_stack.head? with
    | none => simp [PState.is_breakable, h]
    | some k => cases k <;> simp [PState.is_breakable, h]
  · intro he
    unfold PState.is_breakable
    rw [he]

/-- Witness for C8 at a concrete state: at top level (loop stack `[Top]`) break
is not breakable by the amended characterization. -/
theorem c8_is_breakable_char_witness :
    (initState []).is_breakable = false ∧
    ({ initState [] with loop_stack := [LoopKind.While, LoopKind.Top] } : PState).is_breakable
      = true := by
  constructor
  · exact ((c8_is_breakable_char (initState []) (initState [])).1).mpr rfl
  · have h := (c8_is_breakable_char
      { initState [] with loop_stack := [LoopKind.While, LoopKind.Top] }
      { initState [] with loop_stack := [LoopKind.While, LoopKind.Top] }).1
    cases hb : ({ initState [] with
      loop_stack := [LoopKind.While, LoopKind.Top] } : PState).is_breakable with
    | true => rfl
    | false => exact absurd (h.mp hb) (by simp)

/-! ## C3 — parse_break / parse_next guard -/

/-- C3: `parse_break` and `parse_next` fail with "Invalid break" / "Invalid next"
at the keyword's own location (`prev_loc`) exactly when the innermost marker of
the loop stack is Top; otherwise they are exactly the guarded sub-parse and add
no such failure.  Concretely: `break` at top level errors; inside a block
(`[1].each { break }`, loop stack `[Block, Top]` with `}` next) it succeeds;
inside a bare method body (innermost marker Top again) it errors. -/
theorem c3_parse_break_next_guard :
    (∀ (sp : SubParsers) (fuel : Nat) (st : PState),
       st.loop_stack.head? = some LoopKind.Top →
       parse_break sp fuel st =
         .err ⟨ParseErrKind.SyntaxError "Invalid break", st.prev_loc⟩ ∧
       parse_next sp fuel st =
         .err ⟨ParseErrKind.SyntaxError "Invalid next", st.prev_loc⟩) ∧
    (∀ (sp : SubParsers) (fuel : Nat) (st : PState),
       st.loop_stack.head? ≠ some LoopKind.Top →
       parse_break sp fuel st =
         pbind (parse_break_sub sp fuel st) (fun r st => .ok (Node.new_break r.1 r.2, st)) ∧
       parse_next sp fuel st =
         pbind (parse_break_sub sp fuel st) (fun r st => .ok (Node.new_next r.1 r.2, st))) ∧
    (parse_break miniSub 1 (initState []) =
       .err ⟨ParseErrKind.SyntaxError "Invalid break", ⟨0, 0⟩⟩) ∧
    (node_of (parse_break miniSub 1
       { initState [⟨TokenKind.Punct Punct.RBrace, ⟨10, 10⟩⟩] with
         loop_stack := [LoopKind.Block, LoopKind.Top] }) =
       some (Node.new_break (Node.new_nil ⟨0, 0⟩) ⟨0, 0⟩)) ∧
    (parse_break miniSub 1
       { initState [] with prev_loc := ⟨9, 13⟩,
                           loop_stack := [LoopKind.Top, LoopKind.Top] } =
       .err ⟨ParseErrKind.SyntaxError "Invalid break", ⟨9, 13⟩⟩) ∧
    (parse_next miniSub 1 (initState []) =
       .err ⟨ParseErrKind.SyntaxError "Invalid next", ⟨0, 0⟩⟩) := by
  have hbrk : ∀ st : PState, st.loop_stack.head? = some LoopKind.Top →
      st.is_breakable = false := by
    intro st h
    unfold PState.is_breakable
    rw [h]
  have hbrk' : ∀ st : PState, st.loop_stack.head? ≠ some LoopKind.Top →
      st.is_breakable = true := by
    intro st h
    unfold PState.is_breakable
    cases hh : st.loop_stack.head? with
    | none => rfl
    | some k => cases k with
      | Top => exact absurd hh h
      | Block => rfl
      | While => rfl
      | For => rfl
  refine ⟨?_, ?_, rfl, rfl, rfl, rfl⟩
  · intro sp fuel st h
    constructor
    · unfold parse_break
      rw [hbrk st h]
      rfl
    · unfold parse_next
      rw [hbrk st h]
      rfl
  · intro sp fuel st h
    constructor
    · unfold parse_break
      rw [hbrk' st h]
      rfl
    · unfold parse_next
      rw [hbrk' st h]
      rfl

/-- Witness for C3: the guard applied at a concrete top-level state and at a
concrete breakable state. -/
theorem c3_parse_break_next_guard_witness :
    parse_break miniSub 3 { initState [] with prev_loc := ⟨4, 8⟩ } =
      .err ⟨ParseErrKind.SyntaxError "Invalid break", ⟨4, 8⟩⟩ ∧
    parse_next miniSub 3
      { initState [] with loop_stack := [LoopKind.While, LoopKind.Top] } =
      pbind (parse_break_sub miniSub 3
        { initState [] with loop_stack := [LoopKind.While, LoopKind.Top] })
        (fun r st => .ok (Node.new_next r.1 r.2, st)) := by
  constructor
  · exact (c3_parse_break_next_guard.1 miniSub 3
      { initState [] with prev_loc := ⟨4, 8⟩ } rfl).1
  · exact (c3_parse_break_next_guard.2.1 miniSub 3
      { initState [] with loop_stack := [LoopKind.While, LoopKind.Top] }
      (by simp)).2

/-! ## C6 — the suppress-do-block flag around condition positions -/

/-- A token at the degenerate location `(0,0)`. -/
def ztok (k : TokenKind) : Token := ⟨k, ⟨0, 0⟩⟩

/-- Counterexample to C6 as stated.  The claim says the suppress-do-block flag is
set while parsing the condition of each of `while`, `for`, and `if`.  The
flag-recording probe (`probe_flag`: returns 1 when the flag is set, 0 when not)
placed in the expression position observes the flag *unset* (0) in the condition
of `parse_if_then` and in the iterator of `parse_for`, while the same probe under
`parse_while` observes it set (1) — only `parse_while` sets the flag
(flow_control.rs:54-60); `parse_if_then` and `parse_for` never touch it. -/
theorem c6_suppress_do_block_counterexample :
    cond_of_if (parse_if_then spProbe 5
        (initState [ztok (.Reserved .Then), ztok (.Reserved .End)])) =
      some (Node.integer 0 ⟨0, 0⟩) ∧
    iter_of_for (parse_for spProbe 5
        (initState [ztok (.Ident "i"), ztok (.Reserved .In), ztok (.Reserved .Do),
                    ztok (.Reserved .End)])) =
      some (Node.integer 0 ⟨0, 0⟩) ∧
    parts_of_while (parse_while spProbe true
        (initState [ztok (.Reserved .Do), ztok (.Reserved .End)])) =
      some (Node.integer 1 ⟨0, 0⟩, Node.integer 0 ⟨0, 0⟩) :=
  ⟨rfl, rfl, rfl⟩

/-- C6 (amended): only `parse_while` manipulates the suppress-do-block flag — it
is set (probe records 1) for the condition whatever the caller's flag `b` was,
restored before the body (probe records `b` there), and intact in the final
state; `parse_if_then` parses its condition and `parse_for` its iterator with
the caller's flag `b` unchanged. -/
theorem c6_suppress_do_block_flag :
    ∀ flag : Bool,
      parts_of_while (parse_while spProbe true
          { initState [ztok (.Reserved .Do), ztok (.Reserved .End)] with
            suppress_do_block := flag }) =
        some (Node.integer 1 ⟨0, 0⟩, Node.integer (if flag then 1 else 0) ⟨0, 0⟩) ∧
      (match parse_while spProbe true
          { initState [ztok (.Reserved .Do), ztok (.Reserved .End)] with
            suppress_do_block := flag } with
        | .ok (_, st) => some st.suppress_do_block
        | _ => none) = some flag ∧
      cond_of_if (parse_if_then spProbe 5
          { initState [ztok (.Reserved .Then), ztok (.Reserved .End)] with
            suppress_do_block := flag }) =
        some (Node.integer (if flag then 1 else 0) ⟨0, 0⟩) ∧
      iter_of_for (parse_for spProbe 5
          { initState [ztok (.Ident "i"), ztok (.Reserved .In), ztok (.Reserved .Do),
                       ztok (.Reserved .End)] with
            suppress_do_block := flag }) =
        some (Node.integer (if flag then 1 else 0) ⟨0, 0⟩) := by
  intro flag
  cases flag <;> exact ⟨rfl, rfl, rfl, rfl⟩

/-! ## C10 — parse_unless swaps the branches -/

/-- Token stream handed to `parse_unless` for `unless c then A else B end`
(the dispatcher already consumed the keyword), with degenerate locations. -/
def unless_toks (c a b : Int) : List Token :=
  [ztok (.IntLit c), ztok (.Reserved .Then), ztok (.IntLit a),
   ztok (.Reserved .Else), ztok (.IntLit b), ztok (.Reserved .End)]

/-- Token stream handed to `parse_if` for `if c then B else A end`. -/
def if_toks (c b a : Int) : List Token :=
  [ztok (.IntLit c), ztok (.Reserved .Then), ztok (.IntLit b),
   ztok (.Reserved .Else), ztok (.IntLit a), ztok (.Reserved .End)]

/-- C10: `parse_unless` builds the If node with the branches swapped: for any
literals `c`, `a`, `b`, `unless c then a else b end` yields exactly the node of
`if c then b else a end` — the else-body in then-position and the unless body in
else-position; with no else clause the then-position is the empty statement
sequence.  (All tokens carry the degenerate location, so node equality here is
equality of the location-erased structures.) -/
theorem c10_parse_unless_swaps :
    ∀ c a b : Int,
      node_of (parse_unless miniSub (initState (unless_toks c a b))) =
        node_of (parse_if miniSub 2 (initState (if_toks c b a))) ∧
      node_of (parse_unless miniSub (initState (unless_toks c a b))) =
        some (Node.new_if (Node.integer c ⟨0, 0⟩)
          (Node.new_comp_stmt [Node.integer b ⟨0, 0⟩] ⟨0, 0⟩)
          (Node.new_comp_stmt [Node.integer a ⟨0, 0⟩] ⟨0, 0⟩) ⟨0, 0⟩) ∧
      node_of (parse_unless miniSub (initState
          [ztok (.IntLit c), ztok (.Reserved .Then), ztok (.IntLit a),
           ztok (.Reserved .End)])) =
        node_of (parse_if miniSub 2 (initState
          [ztok (.IntLit c), ztok (.Reserved .Then), ztok (.Reserved .Else),
           ztok (.IntLit a), ztok (.Reserved .End)])) ∧
      node_of (parse_unless miniSub (initState
          [ztok (.IntLit c), ztok (.Reserved .Then), ztok (.IntLit a),
           ztok (.Reserved .End)])) =
        some (Node.new_if (Node.integer c ⟨0, 0⟩)
          (Node.new_comp_stmt [] ⟨0, 0⟩)
          (Node.new_comp_stmt [Node.integer a ⟨0, 0⟩] ⟨0, 0⟩) ⟨0, 0⟩) := by
  intro c a b
  exact ⟨rfl, rfl, rfl, rfl⟩

/-! ## C7 — destructuring parameters -/

theorem is_line_term_ztok_ident (n : String) :
    (ztok (TokenKind.Ident n)).is_line_term = false := rfl

theorem is_line_term_ztok_punct (p : Punct) :
    (ztok (TokenKind.Punct p)).is_line_term = false := rfl

theorem dropLT_cons (t : Token) (ts : List Token) (h : t.is_line_term = false) :
    dropLT (t :: ts) = t :: ts := by
  simp [dropLT, List.dropWhile_cons, h]

theorem tableLookup_append_none (t : List String) (x m : String)
    (h : tableLookup t m = none) (hne : m ≠ x) :
    tableLookup (t ++ [x]) m = none := by
  induction t with
  | nil =>
    rw [List.nil_append, tableLookup_cons, if_neg (fun hxm => hne hxm.symm)]
    rfl
  | cons a t ih =>
    rw [List.cons_append, tableLookup_cons]
    rw [tableLookup_cons] at h
    by_cases ha : a = m
    · simp [ha] at h
    · simp only [ha, if_false] at h ⊢
      cases htl : tableLookup t m with
      | some v => rw [htl] at h; simp at h
      | none => rw [ih htl]; rfl

/-- The comma-separated continuation of an identifier list inside a
destructuring group, at degenerate locations. -/
def ident_comma_toks : List String → List Token
  | [] => []
  | n :: rest => ztok (.Punct .Comma) :: ztok (.Ident n) :: ident_comma_toks rest

theorem parse_destruct_loop_ok :
    ∀ (names : List String) (fuel : Nat) (idents : List (String × Loc)) (st : PState)
      (c : LvarScope) (tail : List LvarScope) (suffix : List Token),
      st.scope = c :: tail →
      st.tokens = ident_comma_toks names ++ ztok (.Punct .RParen) :: suffix →
      (∀ m ∈ names, tableLookup c.lvar.table m = none) →
      names.Nodup →
      names.length + 1 ≤ fuel →
      parse_destruct_loop fuel idents st =
        .ok (idents ++ names.map (fun n => (n, (⟨0, 0⟩ : Loc))),
             { st with tokens := suffix, prev_loc := ⟨0, 0⟩,
                       scope := { c with lvar := { c.lvar with
                         table := c.lvar.table ++ names } } :: tail })
  | [], fuel, idents, st, c, tail, suffix, hs, htk, _, _, hfuel => by
    match fuel, hfuel with
    | f + 1, _ =>
      simp only [ident_comma_toks, List.nil_append] at htk
      obtain ⟨tks, eofL, pl, sc, ls, ec, g1, g2, g3, g4⟩ := st
      simp only at htk hs
      subst htk
      subst hs
      simp [parse_destruct_loop, consume_punct, expect_punct, get, pbind, dropLT, ztok,
        Token.is_line_term, Token.is_eof]
  | n :: names, fuel, idents, st, c, tail, suffix, hs, htk, hfresh, hnd, hfuel => by
    match fuel, hfuel with
    | f + 1, hf =>
      have hnodup := List.nodup_cons.mp hnd
      have hne : ∀ m ∈ names, m ≠ n := by
        intro m hm he
        exact hnodup.1 (he ▸ hm)
      have hfresh' : ∀ m ∈ names, tableLookup (c.lvar.table ++ [n]) m = none :=
        fun m hm => tableLookup_append_none _ _ _ (hfresh m (by simp [hm])) (hne m hm)
      have hfr_n : tableLookup c.lvar.table n = none := hfresh n (by simp)
      have hfuel' : names.length + 1 ≤ f := by
        simp only [List.length_cons] at hf
        omega
      simp only [ident_comma_toks, List.cons_append] at htk
      obtain ⟨tks, eofL, pl, sc, ls, ec, g1, g2, g3, g4⟩ := st
      simp only at htk hs
      subst htk
      subst hs
      have hrec := parse_destruct_loop_ok names f (idents ++ [(n, ⟨0, 0⟩)])
        { tokens := ident_comma_toks names ++ ztok (.Punct .RParen) :: suffix,
          eofLoc := eofL, prev_loc := ⟨0, 0⟩,
          scope := { c with lvar := { c.lvar with table := c.lvar.table ++ [n] } } :: tail,
          loop_stack := ls, extern_context := ec, suppress_acc_assign := g1,
          suppress_mul_assign := g2, suppress_do_block := g3, defined_mode := g4 }
        { c with lvar := { c.lvar with table := c.lvar.table ++ [n] } } tail suffix
        rfl rfl hfresh' hnodup.2 hfuel'
      have hstep : parse_destruct_loop (f + 1) idents
          { tokens := ztok (.Punct .Comma) :: ztok (.Ident n) ::
              (ident_comma_toks names ++ ztok (.Punct .RParen) :: suffix),
            eofLoc := eofL, prev_loc := pl, scope := c :: tail, loop_stack := ls,
            extern_context := ec, suppress_acc_assign := g1, suppress_mul_assign := g2,
            suppress_do_block := g3, defined_mode := g4 } =
          pbind (new_param
            { tokens := ident_comma_toks names ++ ztok (.Punct .RParen) :: suffix,
              eofLoc := eofL, prev_loc := ⟨0, 0⟩, scope := c :: tail, loop_stack := ls,
              extern_context := ec, suppress_acc_assign := g1, suppress_mul_assign := g2,
              suppress_do_block := g3, defined_mode := g4 } n ⟨0, 0⟩)
            (fun _ st => parse_destruct_loop f (idents ++ [(n, ⟨0, 0⟩)]) st) := rfl
      rw [hstep]
      have hnp : new_param
          { tokens := ident_comma_toks names ++ ztok (.Punct .RParen) :: suffix,
            eofLoc := eofL, prev_loc := ⟨0, 0⟩, scope := c :: tail, loop_stack := ls,
            extern_context := ec, suppress_acc_assign := g1, suppress_mul_assign := g2,
            suppress_do_block := g3, defined_mode := g4 } n ⟨0, 0⟩ =
          .ok (c.lvar.table.length,
            { tokens := ident_comma_toks names ++ ztok (.Punct .RParen) :: suffix,
              eofLoc := eofL, prev_loc := ⟨0, 0⟩,
              scope := { c with lvar := { c.lvar with table := c.lvar.table ++ [n] } } :: tail,
              loop_stack := ls, extern_context := ec, suppress_acc_assign := g1,
              suppress_mul_assign := g2, suppress_do_block := g3, defined_mode := g4 }) := by
        simp only [new_param, LvarCollector.insert_new, hfr_n]
      rw [hnp]
      show parse_destruct_loop f (idents ++ [(n, ⟨0, 0⟩)]) _ = _
      rw [hrec]
      simp [List.append_assoc]

/-- Counterexample to C7 as stated.  The claim says a destructuring parameter
group consumes comma-separated identifiers *or nested parenthesized groups*.
On the block parameter list `|(y,(z,w))|` the parser reaches the inner `(` where
`parse_destruct_param` runs `expect_ident` and fails with "Expect identifier."
at the inner parenthesis — nested groups are rejected, not consumed. -/
theorem c7_nested_destruct_counterexample :
    parse_formal_params miniSub 10 (some Punct.BitOr)
      { initState
          [⟨TokenKind.Punct Punct.LParen, ⟨1, 1⟩⟩, ⟨TokenKind.Ident "y", ⟨2, 2⟩⟩,
           ⟨TokenKind.Punct Punct.Comma, ⟨3, 3⟩⟩, ⟨TokenKind.Punct Punct.LParen, ⟨4, 4⟩⟩,
           ⟨TokenKind.Ident "z", ⟨5, 5⟩⟩, ⟨TokenKind.Punct Punct.Comma, ⟨6, 6⟩⟩,
           ⟨TokenKind.Ident "w", ⟨7, 7⟩⟩, ⟨TokenKind.Punct Punct.RParen, ⟨8, 8⟩⟩,
           ⟨TokenKind.Punct Punct.RParen, ⟨9, 9⟩⟩, ⟨TokenKind.Punct Punct.BitOr, ⟨10, 10⟩⟩]
        with scope := [LvarScope.new_block none, LvarScope.new_eval none] } =
      .err (error_unexpected ⟨4, 4⟩ "Expect identifier.") := rfl

/-- C7 (amended): a parenthesized group in a formal parameter list is parsed as
a destructuring parameter over comma-separated *identifiers only*: each
identifier is declared as an ordinary parameter of the current frame in order
(the head frame's table is extended by exactly those names), and the group must
be closed by `)` — on the unbalanced `{|x,(y,z|}` the parse fails with a syntax
error at the `|` instead of truncating the list.  A nested parenthesized group
is a syntax error (see the counterexample). -/
theorem c7_parse_destruct_param_idents :
    (∀ (n : String) (names : List String) (st : PState) (c : LvarScope)
       (tail : List LvarScope) (suffix : List Token) (fuel : Nat),
       st.scope = c :: tail →
       st.tokens = ztok (.Ident n) ::
         (ident_comma_toks names ++ ztok (.Punct .RParen) :: suffix) →
       tableLookup c.lvar.table n = none →
       (∀ m ∈ names, tableLookup c.lvar.table m = none ∧ m ≠ n) →
       names.Nodup →
       names.length + 1 ≤ fuel →
       parse_destruct_param fuel st =
         .ok (FormalParam.destruct_param
                ((n :: names).map (fun m => (m, (⟨0, 0⟩ : Loc)))),
              { st with tokens := suffix, prev_loc := ⟨0, 0⟩,
                        scope := { c with lvar := { c.lvar with
                          table := c.lvar.table ++ n :: names } } :: tail })) ∧
    (parse_formal_params miniSub 10 (some Punct.BitOr)
       { initState
           [⟨TokenKind.Ident "x", ⟨2, 2⟩⟩, ⟨TokenKind.Punct Punct.Comma, ⟨3, 3⟩⟩,
            ⟨TokenKind.Punct Punct.LParen, ⟨4, 4⟩⟩, ⟨TokenKind.Ident "y", ⟨5, 5⟩⟩,
            ⟨TokenKind.Punct Punct.Comma, ⟨6, 6⟩⟩, ⟨TokenKind.Ident "z", ⟨7, 7⟩⟩,
            ⟨TokenKind.Punct Punct.BitOr, ⟨8, 8⟩⟩]
         with scope := [LvarScope.new_block none, LvarScope.new_eval none] } =
       .err (error_unexpected ⟨8, 8⟩ "Expect punctuator mismatch.")) := by
  constructor
  · intro n names st c tail suffix fuel hs htk hfr_n hfresh hnd hfuel
    have hfresh' : ∀ m ∈ names, tableLookup (c.lvar.table ++ [n]) m = none :=
      fun m hm => tableLookup_append_none _ _ _ (hfresh m hm).1 (hfresh m hm).2
    obtain ⟨tks, eofL, pl, sc, ls, ec, g1, g2, g3, g4⟩ := st
    simp only at htk hs
    subst htk
    subst hs
    have hrec := parse_destruct_loop_ok names fuel [(n, ⟨0, 0⟩)]
      { tokens := ident_comma_toks names ++ ztok (.Punct .RParen) :: suffix,
        eofLoc := eofL, prev_loc := ⟨0, 0⟩,
        scope := { c with lvar := { c.lvar with table := c.lvar.table ++ [n] } } :: tail,
        loop_stack := ls, extern_context := ec, suppress_acc_assign := g1,
        suppress_mul_assign := g2, suppress_do_block := g3, defined_mode := g4 }
      { c with lvar := { c.lvar with table := c.lvar.table ++ [n] } } tail suffix
      rfl rfl hfresh' hnd hfuel
    have hstep : parse_destruct_param fuel
        { tokens := ztok (.Ident n) ::
            (ident_comma_toks names ++ ztok (.Punct .RParen) :: suffix),
          eofLoc := eofL, prev_loc := pl, scope := c :: tail, loop_stack := ls,
          extern_context := ec, suppress_acc_assign := g1, suppress_mul_assign := g2,
          suppress_do_block := g3, defined_mode := g4 } =
        pbind (new_param
          { tokens := ident_comma_toks names ++ ztok (.Punct .RParen) :: suffix,
            eofLoc := eofL, prev_loc := ⟨0, 0⟩, scope := c :: tail, loop_stack := ls,
            extern_context := ec, suppress_acc_assign := g1, suppress_mul_assign := g2,
            suppress_do_block := g3, defined_mode := g4 } n ⟨0, 0⟩)
          (fun _ st =>
            pbind (parse_destruct_loop fuel [(n, ⟨0, 0⟩)] st)
              (fun idents st => .ok (FormalParam.destruct_param idents, st))) := rfl
    rw [hstep]
    have hnp : new_param
        { tokens := ident_comma_toks names ++ ztok (.Punct .RParen) :: suffix,
          eofLoc := eofL, prev_loc := ⟨0, 0⟩, scope := c :: tail, loop_stack := ls,
          extern_context := ec, suppress_acc_assign := g1, suppress_mul_assign := g2,
          suppress_do_block := g3, defined_mode := g4 } n ⟨0, 0⟩ =
        .ok (c.lvar.table.length,
          { tokens := ident_comma_toks names ++ ztok (.Punct .RParen) :: suffix,
            eofLoc := eofL, prev_loc := ⟨0, 0⟩,
            scope := { c with lvar := { c.lvar with table := c.lvar.table ++ [n] } } :: tail,
            loop_stack := ls, extern_context := ec, suppress_acc_assign := g1,
            suppress_mul_assign := g2, suppress_do_block := g3, defined_mode := g4 }) := by
      simp only [new_param, LvarCollector.insert_new, hfr_n]
    rw [hnp]
    show pbind (parse_destruct_loop fuel [(n, ⟨0, 0⟩)] _) _ = _
    rw [hrec]
    simp [pbind, List.append_assoc]
  · rfl

/-- Witness for C7 (amended) at a concrete group `(a, b)` in a fresh block
frame. -/
theorem c7_parse_destruct_param_idents_witness :
    parse_destruct_param 2
      { initState [ztok (.Ident "a"), ztok (.Punct .Comma), ztok (.Ident "b"),
                   ztok (.Punct .RParen)] with
        scope := [LvarScope.new_block none] } =
      .ok (FormalParam.destruct_param [("a", ⟨0, 0⟩), ("b", ⟨0, 0⟩)],
           { initState [] with
             scope := [⟨ScopeKind.Block, { LvarCollector.new with table := ["a", "b"] }⟩] }) := by
  have h := c7_parse_destruct_param_idents.1 "a" ["b"]
    { initState [ztok (.Ident "a"), ztok (.Punct .Comma), ztok (.Ident "b"),
                 ztok (.Punct .RParen)] with
      scope := [LvarScope.new_block none] }
    (LvarScope.new_block none) [] [] 2 rfl rfl rfl
    (by intro m hm; simp at hm; subst hm; exact ⟨rfl, by decide⟩) (by simp) (by simp)
  rw [h]
  rfl

/-! ## C2 — parameter-category ordering -/

/-- The ordering category of a parameter, when it has one (destructuring, block
and delegate parameters sit outside the six-category order). -/
def FormalParam.catOf : FormalParam → Option ParamKind
  | .req_param .. => some .Required
  | .optional .. => some .Optional
  | .rest .. => some .Rest
  | .rest_discard _ => some .Rest
  | .post .. => some .PostReq
  | .keyword .. => some .KeyWord
  | .kwrest .. => some .KWRest
  | .block .. => none
  | .delegeate _ => none
  | .destruct_param _ => none

/-- Block and delegate parameters: the ones that terminate the parameter loop. -/
def FormalParam.blockish : FormalParam → Bool
  | .block .. => true
  | .delegeate _ => true
  | _ => false

/-- Whether the ordering state machine of `parse_formal_params` admits a
parameter of category `cat` in state `s` (read off the source's checks). -/
def stepOk (s cat : ParamKind) : Bool :=
  match cat with
  | .Required => decide (s = ParamKind.Required)
  | .Optional => decide (s = ParamKind.Required ∨ s = ParamKind.Optional)
  | .Rest => decide (s.rank < ParamKind.Rest.rank)
  | .PostReq => decide (s = ParamKind.Optional ∨ s = ParamKind.Rest ∨ s = ParamKind.PostReq)
  | .KeyWord => decide (s ≠ ParamKind.KWRest)
  | .KWRest => decide (s.rank < ParamKind.KWRest.rank)

/-- The state after admitting a parameter of category `cat` in state `s`. -/
def stepState (s cat : ParamKind) : ParamKind :=
  match cat with
  | .Required => s
  | .Optional => .Optional
  | .Rest => .Rest
  | .PostReq => .PostReq
  | .KeyWord => .KeyWord
  | .KWRest => .KWRest

/-- The ordering state machine as a recognizer over a parsed parameter list:
categorized parameters must be admitted by `stepOk` in sequence, and a block or
delegate parameter can only be last. -/
def accepts : ParamKind → List FormalParam → Bool
  | _, [] => true
  | s, p :: rest =>
    if p.blockish then rest.isEmpty
    else
      match p.catOf with
      | none => accepts s rest
      | some cat => stepOk s cat && accepts (stepState s cat) rest

theorem pbind_ok {α β σ : Type} (m : PRes (α × σ)) (f : α → σ → PRes (β × σ))
    (b : β × σ) :
    pbind m f = .ok b ↔ ∃ a s, m = .ok (a, s) ∧ f a s = .ok b := by
  cases m with
  | ok p =>
    simp only [pbind]
    constructor
    · intro hf
      exact ⟨p.1, p.2, rfl, hf⟩
    · rintro ⟨a, s, hm, hf⟩
      injection hm with hm
      rw [show p = (a, s) from hm]
      exact hf
  | err e =>
    simp only [pbind]
    constructor
    · intro hf; exact absurd hf (by simp)
    · rintro ⟨a, s, hm, _⟩; exact absurd hm (by simp)
  | out =>
    simp only [pbind]
    constructor
    · intro hf; exact absurd hf (by simp)
    · rintro ⟨a, s, hm, _⟩; exact absurd hm (by simp)

theorem parse_destruct_param_shape (fuel : Nat) (st : PState) (q : FormalParam)
    (st' : PState) (h : parse_destruct_param fuel st = .ok (q, st')) :
    ∃ idents, q = FormalParam.destruct_param idents := by
  unfold parse_destruct_param at h
  rw [pbind_ok] at h
  obtain ⟨name, st1, _, h⟩ := h
  rw [pbind_ok] at h
  obtain ⟨_, st2, _, h⟩ := h
  rw [pbind_ok] at h
  obtain ⟨idents, st3, _, h⟩ := h
  simp only [PRes.ok.injEq, Prod.mk.injEq] at h
  exact ⟨idents, h.1.symm⟩

set_option maxHeartbeats 2000000 in
/-- One parameter accepted by `param_step` is exactly one legal move of the
ordering state machine: the break flag is set iff the parameter is block or
delegate, an uncategorized parameter leaves the state alone, and a categorized
parameter passes `stepOk` and moves the state to `stepState`. -/
theorem param_step_spec (sp : SubParsers) (term : Option Punct) (fuel : Nat)
    (state : ParamKind) (st : PState) (p : FormalParam) (state' : ParamKind)
    (brk : Bool) (st' : PState)
    (h : param_step sp term fuel state st = .ok ((p, state', brk), st')) :
    brk = p.blockish ∧
    (p.blockish = false →
      (p.catOf = none ∧ state' = state) ∨
      (∃ cat, p.catOf = some cat ∧ stepOk state cat = true ∧
        state' = stepState state cat)) := by
  unfold param_step at h
  split at h
  split at h
  · -- destructuring branch
    simp only [pbind_ok] at h
    obtain ⟨q, st2, hd, hf⟩ := h
    obtain ⟨idents, rfl⟩ := parse_destruct_param_shape _ _ _ _ hd
    simp only [PRes.ok.injEq, Prod.mk.injEq] at hf
    obtain ⟨⟨hp, hs2, hb⟩, _⟩ := hf
    subst hp; subst hs2; subst hb
    exact ⟨rfl, fun _ => Or.inl ⟨rfl, rfl⟩⟩
  · split at h
    split at h
    · -- delegate branch
      split at h
      · simp at h
      · simp only [pbind_ok] at h
        obtain ⟨u, st3, _, hf⟩ := h
        simp only [PRes.ok.injEq, Prod.mk.injEq] at hf
        obtain ⟨⟨hp, hs2, hb⟩, _⟩ := hf
        subst hp; subst hs2; subst hb
        refine ⟨rfl, fun hb => ?_⟩
        simp [FormalParam.blockish] at hb
    · split at h
      split at h
      · -- block branch
        simp only [pbind_ok] at h
        obtain ⟨name, stA, _, h⟩ := h
        obtain ⟨u, stB, _, hf⟩ := h
        simp only [PRes.ok.injEq, Prod.mk.injEq] at hf
        obtain ⟨⟨hp, hs2, hb⟩, _⟩ := hf
        subst hp; subst hs2; subst hb
        refine ⟨rfl, fun hb => ?_⟩
        simp [FormalParam.blockish] at hb
      · split at h
        split at h
        · -- rest branch
          split at h
          · simp at h
          · rename_i hguard
            split at h
            split at h
            · -- named rest
              simp only [pbind_ok] at h
              obtain ⟨u, stD, _, hf⟩ := h
              simp only [PRes.ok.injEq, Prod.mk.injEq] at hf
              obtain ⟨⟨hp, hs2, hb⟩, _⟩ := hf
              subst hp; subst hs2; subst hb
              refine ⟨rfl, fun _ => Or.inr ⟨ParamKind.Rest, rfl, ?_, rfl⟩⟩
              simp only [not_le] at hguard
              exact decide_eq_true hguard
            · -- anonymous rest
              simp only [PRes.ok.injEq, Prod.mk.injEq] at h
              obtain ⟨⟨hp, hs2, hb⟩, _⟩ := h
              subst hp; subst hs2; subst hb
              refine ⟨rfl, fun _ => Or.inr ⟨ParamKind.Rest, rfl, ?_, rfl⟩⟩
              simp only [not_le] at hguard
              exact decide_eq_true hguard
        · split at h
          split at h
          · -- keyword-rest branch
            simp only [pbind_ok] at h
            obtain ⟨name, stE, _, h⟩ := h
            split at h
            · simp at h
            · rename_i hguard
              simp only [pbind_ok] at h
              obtain ⟨u, stF, _, hf⟩ := h
              simp only [PRes.ok.injEq, Prod.mk.injEq] at hf
              obtain ⟨⟨hp, hs2, hb⟩, _⟩ := hf
              subst hp; subst hs2; subst hb
              refine ⟨rfl, fun _ => Or.inr ⟨ParamKind.KWRest, rfl, ?_, rfl⟩⟩
              simp only [not_le] at hguard
              exact decide_eq_true hguard
          · -- ident-headed branches
            simp only [pbind_ok] at h
            obtain ⟨name, stG, _, h⟩ := h
            split at h
            · -- optional branch
              simp only [pbind_ok] at h
              obtain ⟨default, stH, _, h⟩ := h
              cases state with
              | Required =>
                simp only [pbind_ok] at h
                obtain ⟨u, stI, _, hf⟩ := h
                simp only [PRes.ok.injEq, Prod.mk.injEq] at hf
                obtain ⟨⟨hp, hs2, hb⟩, _⟩ := hf
                subst hp; subst hs2; subst hb
                exact ⟨rfl, fun _ => Or.inr ⟨ParamKind.Optional, rfl, by decide, rfl⟩⟩
              | Optional =>
                simp only [pbind_ok] at h
                obtain ⟨u, stI, _, hf⟩ := h
                simp only [PRes.ok.injEq, Prod.mk.injEq] at hf
                obtain ⟨⟨hp, hs2, hb⟩, _⟩ := hf
                subst hp; subst hs2; subst hb
                exact ⟨rfl, fun _ => Or.inr ⟨ParamKind.Optional, rfl, by decide, rfl⟩⟩
              | Rest => simp at h
              | PostReq => simp at h
              | KeyWord => simp at h
              | KWRest => simp at h
            · split at h
              · -- keyword branch
                simp only [pbind_ok] at h
                obtain ⟨default, stJ, _, h⟩ := h
                split at h
                · simp at h
                · rename_i hguard
                  simp only [pbind_ok] at h
                  obtain ⟨lvar, stK, _, h⟩ := h
                  obtain ⟨u, stL, _, hf⟩ := h
                  simp only [PRes.ok.injEq, Prod.mk.injEq] at hf
                  obtain ⟨⟨hp, hs2, hb⟩, _⟩ := hf
                  subst hp; subst hs2; subst hb
                  exact ⟨rfl, fun _ =>
                    Or.inr ⟨ParamKind.KeyWord, rfl, decide_eq_true hguard, rfl⟩⟩
              · -- required branch
                cases state with
                | Required =>
                  simp only [pbind_ok] at h
                  obtain ⟨u, stM, _, hf⟩ := h
                  simp only [PRes.ok.injEq, Prod.mk.injEq] at hf
                  obtain ⟨⟨hp, hs2, hb⟩, _⟩ := hf
                  subst hp; subst hs2; subst hb
                  exact ⟨rfl, fun _ => Or.inr ⟨ParamKind.Required, rfl, by decide, rfl⟩⟩
                | Optional =>
                  simp only [pbind_ok] at h
                  obtain ⟨u, stM, _, hf⟩ := h
                  simp only [PRes.ok.injEq, Prod.mk.injEq] at hf
                  obtain ⟨⟨hp, hs2, hb⟩, _⟩ := hf
                  subst hp; subst hs2; subst hb
                  exact ⟨rfl, fun _ => Or.inr ⟨ParamKind.PostReq, rfl, by decide, rfl⟩⟩
                | Rest =>
                  simp only [pbind_ok] at h
                  obtain ⟨u, stM, _, hf⟩ := h
                  simp only [PRes.ok.injEq, Prod.mk.injEq] at hf
                  obtain ⟨⟨hp, hs2, hb⟩, _⟩ := hf
                  subst hp; subst hs2; subst hb
                  exact ⟨rfl, fun _ => Or.inr ⟨ParamKind.PostReq, rfl, by decide, rfl⟩⟩
                | PostReq =>
                  simp only [pbind_ok] at h
                  obtain ⟨u, stM, _, hf⟩ := h
                  simp only [PRes.ok.injEq, Prod.mk.injEq] at hf
                  obtain ⟨⟨hp, hs2, hb⟩, _⟩ := hf
                  subst hp; subst hs2; subst hb
                  exact ⟨rfl, fun _ => Or.inr ⟨ParamKind.PostReq, rfl, by decide, rfl⟩⟩
                | KeyWord => simp at h
                | KWRest => simp at h

theorem finish_params_args (term : Option Punct) (A : List FormalParam) (st : PState)
    (args' : List FormalParam) (st' : PState)
    (h : finish_params term A st = .ok (args', st')) : args' = A := by
  unfold finish_params at h
  cases term with
  | none =>
    simp only [PRes.ok.injEq, Prod.mk.injEq] at h
    exact h.1.symm
  | some t =>
    rw [pbind_ok] at h
    obtain ⟨u, st2, _, hf⟩ := h
    simp only [PRes.ok.injEq, Prod.mk.injEq] at hf
    exact hf.1.symm

theorem blockish_catOf (p : FormalParam) (h : p.blockish = true) : p.catOf = none := by
  cases p <;> simp [FormalParam.blockish, FormalParam.catOf] at h ⊢

/-- Every successful run of the `parse_formal_params` loop extends the collected
parameters by a suffix the ordering state machine accepts from the entry state. -/
theorem parse_formal_params_loop_accepts :
    ∀ (fuel : Nat) (sp : SubParsers) (term : Option Punct) (state : ParamKind)
      (args : List FormalParam) (st : PState) (args' : List FormalParam) (st' : PState),
      parse_formal_params_loop sp term fuel state args st = .ok (args', st') →
      ∃ rest, args' = args ++ rest ∧ accepts state rest = true
  | 0, sp, term, state, args, st, args', st', h => by
    simp [parse_formal_params_loop] at h
  | fuel + 1, sp, term, state, args, st, args', st', h => by
    unfold parse_formal_params_loop at h
    split at h
    split at h
    · -- terminator consumed: empty suffix
      simp only [PRes.ok.injEq, Prod.mk.injEq] at h
      exact ⟨[], by simp [h.1.symm], rfl⟩
    · simp only [pbind_ok] at h
      obtain ⟨r, st2, hps, h⟩ := h
      obtain ⟨p, state2, brk⟩ := r
      have hspec := param_step_spec sp term fuel state _ p state2 brk st2 hps
      split at h
      · -- block/delegate parameter: last, loop breaks
        rename_i hb
        have hargs := finish_params_args term (args ++ [p]) st2 args' st' h
        refine ⟨[p], hargs, ?_⟩
        unfold accepts
        rw [if_pos (by rw [← hspec.1]; exact hb)]
        rfl
      · rename_i hb
        have hbf : p.blockish = false := by
          rw [← hspec.1]
          exact Bool.not_eq_true _ |>.mp hb
        split at h
        · -- comma: continue
          obtain ⟨rest', hargs, hacc⟩ :=
            parse_formal_params_loop_accepts fuel sp term state2 (args ++ [p]) _ args' st' h
          refine ⟨p :: rest', by rw [hargs]; simp, ?_⟩
          unfold accepts
          rw [if_neg (by rw [hbf]; simp)]
          rcases hspec.2 hbf with ⟨hcat, hstate⟩ | ⟨cat, hcat, hok, hstate⟩
          · rw [hcat, ← hstate]
            exact hacc
          · rw [hcat]
            simp only [Bool.and_eq_true]
            exact ⟨hok, by rw [← hstate]; exact hacc⟩
        · -- no comma: close the list
          have hargs := finish_params_args term (args ++ [p]) _ args' st' h
          refine ⟨[p], hargs, ?_⟩
          unfold accepts
          rw [if_neg (by rw [hbf]; simp)]
          rcases hspec.2 hbf with ⟨hcat, _⟩ | ⟨cat, hcat, hok, _⟩
          · rw [hcat]; rfl
          · rw [hcat]
            simp only [Bool.and_eq_true]
            exact ⟨hok, rfl⟩

theorem stepOk_rank :
    ∀ s cat : ParamKind, stepOk s cat = true →
      s.rank ≤ cat.rank ∧ (stepState s cat).rank = cat.rank := by
  intro s cat
  cases s <;> cases cat <;> decide

theorem accepts_head_bound :
    ∀ (l : List FormalParam) (s : ParamKind), accepts s l = true →
      ∀ cat ∈ l.filterMap FormalParam.catOf, s.rank ≤ cat.rank
  | [], s, _, cat, hc => by simp at hc
  | p :: rest, s, h, cat, hc => by
    unfold accepts at h
    by_cases hb : p.blockish = true
    · rw [if_pos hb] at h
      have hrest : rest = [] := List.isEmpty_iff.mp h
      rw [List.filterMap_cons, blockish_catOf p hb, hrest] at hc
      simp at hc
    · rw [if_neg hb] at h
      rw [List.filterMap_cons] at hc
      cases hcat : p.catOf with
      | none =>
        rw [hcat] at h hc
        exact accepts_head_bound rest s h cat hc
      | some c =>
        rw [hcat] at h hc
        simp only [Bool.and_eq_true] at h
        rcases List.mem_cons.mp hc with hceq | hcmem
        · rw [hceq]
          exact (stepOk_rank s c h.1).1
        · have h1 := accepts_head_bound rest (stepState s c) h.2 cat hcmem
          have h2 := stepOk_rank s c h.1
          omega

theorem accepts_chain :
    ∀ (l : List FormalParam) (s : ParamKind), accepts s l = true →
      List.Chain' (fun a b : ParamKind => a.rank ≤ b.rank)
        (l.filterMap FormalParam.catOf)
  | [], s, _ => by simp
  | p :: rest, s, h => by
    unfold accepts at h
    by_cases hb : p.blockish = true
    · rw [if_pos hb] at h
      have hrest : rest = [] := List.isEmpty_iff.mp h
      rw [hrest, List.filterMap_cons, blockish_catOf p hb]
      simp
    · rw [if_neg hb] at h
      rw [List.filterMap_cons]
      cases hcat : p.catOf with
      | none =>
        rw [hcat] at h
        exact accepts_chain rest s h
      | some c =>
        rw [hcat] at h
        simp only [Bool.and_eq_true] at h
        rw [List.chain'_cons']
        refine ⟨?_, accepts_chain rest (stepState s c) h.2⟩
        intro b hbmem
        have hmem := List.mem_of_mem_head? hbmem
        have h1 := accepts_head_bound rest (stepState s c) h.2 b hmem
        have h2 := stepOk_rank s c h.1
        omega

theorem accepts_blockish_last :
    ∀ (l : List FormalParam) (s : ParamKind), accepts s l = true →
      ∀ p ∈ l.dropLast, p.blockish = false
  | [], s, _, p, hp => by simp at hp
  | q :: rest, s, h, p, hp => by
    unfold accepts at h
    by_cases hb : q.blockish = true
    · rw [if_pos hb] at h
      have hrest : rest = [] := List.isEmpty_iff.mp h
      rw [hrest] at hp
      simp at hp
    · rw [if_neg hb] at h
      cases rest with
      | nil => simp at hp
      | cons r rs =>
        rw [List.dropLast_cons_of_ne_nil (by simp)] at hp
        rcases List.mem_cons.mp hp with hpq | hpmem
        · rw [hpq]
          exact Bool.not_eq_true _ |>.mp hb
        · cases hcat : q.catOf with
          | none =>
            rw [hcat] at h
            exact accepts_blockish_last (r :: rs) s h p hpmem
          | some c =>
            rw [hcat] at h
            simp only [Bool.and_eq_true] at h
            exact accepts_blockish_last (r :: rs) (stepState s c) h.2 p hpmem

/-- Parser state at the parameter list of `def f(x: 1, y) end` (just after the
opening parenthesis; a Method frame is current). -/
def c2_reject_state : PState :=
  { initState
      [⟨TokenKind.Ident "x", ⟨6, 6⟩⟩, ⟨TokenKind.Punct Punct.Colon, ⟨7, 7⟩⟩,
       ⟨TokenKind.IntLit 1, ⟨9, 9⟩⟩, ⟨TokenKind.Punct Punct.Comma, ⟨10, 10⟩⟩,
       ⟨TokenKind.Ident "y", ⟨12, 12⟩⟩, ⟨TokenKind.Punct Punct.RParen, ⟨13, 13⟩⟩]
    with scope := [LvarScope.new_method] }

/-- Parser state at the parameter list of `def f(x, y: 1, **r) end`. -/
def c2_accept_state : PState :=
  { initState
      [⟨TokenKind.Ident "x", ⟨6, 6⟩⟩, ⟨TokenKind.Punct Punct.Comma, ⟨7, 7⟩⟩,
       ⟨TokenKind.Ident "y", ⟨9, 9⟩⟩, ⟨TokenKind.Punct Punct.Colon, ⟨10, 10⟩⟩,
       ⟨TokenKind.IntLit 1, ⟨12, 12⟩⟩, ⟨TokenKind.Punct Punct.Comma, ⟨13, 13⟩⟩,
       ⟨TokenKind.Punct Punct.DMul, ⟨15, 15⟩⟩, ⟨TokenKind.Ident "r", ⟨17, 17⟩⟩,
       ⟨TokenKind.Punct Punct.RParen, ⟨18, 18⟩⟩]
    with scope := [LvarScope.new_method] }

/-- C2: category transitions in `parse_formal_params` are forward-only.  On
every successful parse the category sequence of the collected parameters is
monotone in the order Required → Optional → Rest → PostRequired → Keyword →
KeywordRest (each step admitted by the source's state machine from the initial
Required state), and a block or delegate parameter can only be the last one.  A
parameter whose category would move backward fails with a syntax error at that
parameter's position: a plain required or an optional parameter after a keyword
parameter, a second rest parameter, and a keyword parameter after a keyword-rest
all error with the source's respective messages.  In particular the list of
`def f(x: 1, y) end` is rejected at `y`, and that of `def f(x, y: 1, **r) end`
is accepted. -/
theorem c2_formal_params_order :
    (∀ (sp : SubParsers) (fuel : Nat) (term : Option Punct) (st : PState)
       (args : List FormalParam) (st' : PState),
       parse_formal_params sp fuel term st = .ok (args, st') →
       accepts ParamKind.Required args = true ∧
       List.Chain' (fun a b : ParamKind => a.rank ≤ b.rank)
         (args.filterMap FormalParam.catOf) ∧
       (∀ p ∈ args.dropLast, p.blockish = false)) ∧
    (∀ name : String,
       param_step miniSub (some Punct.RParen) 5 ParamKind.KeyWord
         { initState [ztok (.Ident name), ztok (.Punct .RParen)] with
           scope := [LvarScope.new_method] } =
       .err (error_unexpected ⟨0, 0⟩ "Required parameter is not allowed in ths position.")) ∧
    (∀ name : String,
       param_step miniSub (some Punct.RParen) 5 ParamKind.KeyWord
         { initState [ztok (.Ident name), ztok (.Punct .Assign), ztok (.IntLit 1),
                      ztok (.Punct .RParen)] with
           scope := [LvarScope.new_method] } =
       .err (error_unexpected ⟨0, 0⟩ "Optional parameter is not allowed in ths position.")) ∧
    (∀ name : String,
       param_step miniSub (some Punct.RParen) 5 ParamKind.Rest
         { initState [ztok (.Punct .Mul), ztok (.Ident name), ztok (.Punct .RParen)] with
           scope := [LvarScope.new_method] } =
       .err (error_unexpected ⟨0, 0⟩ "Rest parameter is not allowed in ths position.")) ∧
    (∀ name : String,
       param_step miniSub (some Punct.RParen) 5 ParamKind.KWRest
         { initState [ztok (.Ident name), ztok (.Punct .Colon), ztok (.IntLit 1),
                      ztok (.Punct .RParen)] with
           scope := [LvarScope.new_method] } =
       .err (error_unexpected ⟨0, 0⟩ "Keyword parameter is not allowed in ths position.")) ∧
    (parse_formal_params miniSub 10 (some Punct.RParen) c2_reject_state =
       .err (error_unexpected ⟨12, 12⟩
         "Required parameter is not allowed in ths position.")) ∧
    (parse_formal_params miniSub 10 (some Punct.RParen) c2_accept_state =
       .ok ([FormalParam.req_param "x" ⟨6, 6⟩,
             FormalParam.keyword "y" (some (Node.integer 1 ⟨12, 12⟩)) ⟨9, 12⟩,
             FormalParam.kwrest "r" ⟨15, 17⟩],
            { tokens := [], eofLoc := ⟨0, 0⟩, prev_loc := ⟨18, 18⟩,
              scope := [⟨ScopeKind.Method, ⟨["x", "y", "r"], [1], some 2, none, none⟩⟩],
              loop_stack := [LoopKind.Top], extern_context := [],
              suppress_acc_assign := false, suppress_mul_assign := false,
              suppress_do_block := false, defined_mode := false })) := by
  refine ⟨?_, fun name => rfl, fun name => rfl, fun name => rfl, fun name => rfl, rfl, rfl⟩
  intro sp fuel term st args st' h
  unfold parse_formal_params at h
  obtain ⟨rest, hr, hacc⟩ :=
    parse_formal_params_loop_accepts fuel sp term ParamKind.Required [] st args st' h
  have hargs : args = rest := by simpa using hr
  subst hargs
  exact ⟨hacc, accepts_chain _ _ hacc, accepts_blockish_last _ _ hacc⟩

/-- Witness for C2 at the accepted list of `def f(x, y: 1, **r) end`: the parsed
parameters are admitted by the ordering machine and their category sequence is
monotone. -/
theorem c2_formal_params_order_witness :
    accepts ParamKind.Required
      [FormalParam.req_param "x" ⟨6, 6⟩,
       FormalParam.keyword "y" (some (Node.integer 1 ⟨12, 12⟩)) ⟨9, 12⟩,
       FormalParam.kwrest "r" ⟨15, 17⟩] = true ∧
    List.Chain' (fun a b : ParamKind => a.rank ≤ b.rank)
      ([FormalParam.req_param "x" ⟨6, 6⟩,
        FormalParam.keyword "y" (some (Node.integer 1 ⟨12, 12⟩)) ⟨9, 12⟩,
        FormalParam.kwrest "r" ⟨15, 17⟩].filterMap FormalParam.catOf) := by
  have h := c2_formal_params_order.1 miniSub 10 (some Punct.RParen) c2_accept_state
    [FormalParam.req_param "x" ⟨6, 6⟩,
     FormalParam.keyword "y" (some (Node.integer 1 ⟨12, 12⟩)) ⟨9, 12⟩,
     FormalParam.kwrest "r" ⟨15, 17⟩]
    { tokens := [], eofLoc := ⟨0, 0⟩, prev_loc := ⟨18, 18⟩,
      scope := [⟨ScopeKind.Method, ⟨["x", "y", "r"], [1], some 2, none, none⟩⟩],
      loop_stack := [LoopKind.Top], extern_context := [],
      suppress_acc_assign := false, suppress_mul_assign := false,
      suppress_do_block := false, defined_mode := false } rfl
  exact ⟨h.1, h.2.1⟩

/-! ## C9 — stack balance of loop- and block-introducing parsers -/

/-- Two parser states agree on the loop stack and on the scope stack's depth and
frame kinds (collector contents may differ). -/
def kindsEq (a b : PState) : Prop :=
  a.loop_stack = b.loop_stack ∧ a.scope.map LvarScope.kind = b.scope.map LvarScope.kind

theorem kindsEq_refl (a : PState) : kindsEq a a := ⟨rfl, rfl⟩

theorem kindsEq_trans {a b c : PState} (h1 : kindsEq a b) (h2 : kindsEq b c) :
    kindsEq a c := ⟨h1.1.trans h2.1, h1.2.trans h2.2⟩

theorem kindsEq_of_stacks {a b : PState} (hs : a.scope = b.scope)
    (hl : a.loop_stack = b.loop_stack) : kindsEq a b := ⟨hl, by rw [hs]⟩

/-- A sub-parser whose successful runs preserve the loop stack exactly and the
scope stack's depth and frame kinds (the behavior of the real statement and
expression sub-grammars on success). -/
def preservesStacks (f : PState → PRes (Node × PState)) : Prop :=
  ∀ st n st', f st = .ok (n, st') → kindsEq st' st

theorem consume_punct_stacks (st : PState) (p : Punct) :
    (consume_punct st p).2.scope = st.scope ∧
    (consume_punct st p).2.loop_stack = st.loop_stack := by
  unfold consume_punct
  split
  · split <;> simp
  · simp

theorem consume_punct_no_term_stacks (st : PState) (p : Punct) :
    (consume_punct_no_term st p).2.scope = st.scope ∧
    (consume_punct_no_term st p).2.loop_stack = st.loop_stack := by
  unfold consume_punct_no_term
  split
  · split <;> simp
  · simp

theorem consume_reserved_stacks (st : PState) (r : Reserved) :
    (consume_reserved st r).2.scope = st.scope ∧
    (consume_reserved st r).2.loop_stack = st.loop_stack := by
  unfold consume_reserved
  split
  · split <;> simp
  · simp

theorem consume_reserved_no_skip_line_term_stacks (st : PState) (r : Reserved) :
    (consume_reserved_no_skip_line_term st r).2.scope = st.scope ∧
    (consume_reserved_no_skip_line_term st r).2.loop_stack = st.loop_stack := by
  unfold consume_reserved_no_skip_line_term
  split
  · split <;> simp
  · simp

theorem consume_ident_stacks (st : PState) :
    (consume_ident st).2.scope = st.scope ∧
    (consume_ident st).2.loop_stack = st.loop_stack := by
  unfold consume_ident
  split
  · split <;> simp
  · simp

theorem consume_term_stacks (st : PState) :
    (consume_term st).2.scope = st.scope ∧
    (consume_term st).2.loop_stack = st.loop_stack := by
  unfold consume_term
  split
  · simp
  · split
    · split <;> simp
    · simp

theorem consume_terminator_stacks (term : Option Punct) (st : PState) :
    (consume_terminator term st).2.scope = st.scope ∧
    (consume_terminator term st).2.loop_stack = st.loop_stack := by
  unfold consume_terminator
  cases term with
  | some t => exact consume_punct_stacks st t
  | none => exact ⟨rfl, rfl⟩

theorem consume_comma_sep_stacks (term : Option Punct) (st : PState) :
    (consume_comma_sep term st).2.scope = st.scope ∧
    (consume_comma_sep term st).2.loop_stack = st.loop_stack := by
  unfold consume_comma_sep
  cases term with
  | some t => exact consume_punct_stacks st Punct.Comma
  | none => exact consume_punct_no_term_stacks st Punct.Comma

theorem get_stacks (st : PState) (t : Token) (st' : PState)
    (h : get st = .ok (t, st')) : st'.scope = st.scope ∧ st'.loop_stack = st.loop_stack := by
  unfold get at h
  split at h
  · exact absurd h (by simp)
  · split at h
    · exact absurd h (by simp)
    · simp only [PRes.ok.injEq, Prod.mk.injEq] at h
      rw [← h.2]
      exact ⟨rfl, rfl⟩

theorem expect_reserved_stacks (st : PState) (r : Reserved) (u : Unit) (st' : PState)
    (h : expect_reserved st r = .ok (u, st')) :
    st'.scope = st.scope ∧ st'.loop_stack = st.loop_stack := by
  unfold expect_reserved at h
  split at h
  · rename_i t st2 hget
    split at h
    · simp only [PRes.ok.injEq, Prod.mk.injEq] at h
      rw [← h.2]
      exact get_stacks st t st2 hget
    · exact absurd h (by simp)
  · exact absurd h (by simp)
  · exact absurd h (by simp)

theorem expect_punct_stacks (st : PState) (p : Punct) (u : Unit) (st' : PState)
    (h : expect_punct st p = .ok (u, st')) :
    st'.scope = st.scope ∧ st'.loop_stack = st.loop_stack := by
  unfold expect_punct at h
  split at h
  · rename_i t st2 hget
    split at h
    · simp only [PRes.ok.injEq, Prod.mk.injEq] at h
      rw [← h.2]
      exact get_stacks st t st2 hget
    · exact absurd h (by simp)
  · exact absurd h (by simp)
  · exact absurd h (by simp)

theorem expect_ident_stacks (st : PState) (name : String) (st' : PState)
    (h : expect_ident st = .ok (name, st')) :
    st'.scope = st.scope ∧ st'.loop_stack = st.loop_stack := by
  unfold expect_ident at h
  split at h
  · rename_i t st2 hget
    split at h
    · simp only [PRes.ok.injEq, Prod.mk.injEq] at h
      rw [← h.2]
      exact get_stacks st t st2 hget
    · exact absurd h (by simp)
  · exact absurd h (by simp)
  · exact absurd h (by simp)

theorem parse_then_stacks (st : PState) (u : Unit) (st' : PState)
    (h : parse_then st = .ok (u, st')) :
    st'.scope = st.scope ∧ st'.loop_stack = st.loop_stack := by
  unfold parse_then at h
  split at h
  rename_i x b st2 heq
  have h1 : st2.scope = st.scope ∧ st2.loop_stack = st.loop_stack := by
    have hct := consume_term_stacks st
    rw [heq] at hct
    exact hct
  split at h
  · simp only [PRes.ok.injEq, Prod.mk.injEq] at h
    rw [← h.2]
    have h2 := consume_reserved_stacks st2 Reserved.Then
    exact ⟨h2.1.trans h1.1, h2.2.trans h1.2⟩
  · have h2 := expect_reserved_stacks st2 Reserved.Then u st' h
    exact ⟨h2.1.trans h1.1, h2.2.trans h1.2⟩

theorem parse_do_stacks (st : PState) (u : Unit) (st' : PState)
    (h : parse_do st = .ok (u, st')) :
    st'.scope = st.scope ∧ st'.loop_stack = st.loop_stack := by
  unfold parse_do at h
  split at h
  rename_i x b st2 heq
  have h1 : st2.scope = st.scope ∧ st2.loop_stack = st.loop_stack := by
    have hct := consume_term_stacks st
    rw [heq] at hct
    exact hct
  split at h
  · simp only [PRes.ok.injEq, Prod.mk.injEq] at h
    rw [← h.2]
    exact h1
  · have h2 := expect_reserved_stacks st2 Reserved.Do u st' h
    exact ⟨h2.1.trans h1.1, h2.2.trans h1.2⟩

theorem new_param_kinds (st : PState) (name : String) (loc : Loc) (i : Nat) (st' : PState)
    (h : new_param st name loc = .ok (i, st')) : kindsEq st' st := by
  unfold new_param at h
  split at h
  · exact absurd h (by simp)
  · rename_i c rest hs
    split at h
    · simp only [PRes.ok.injEq, Prod.mk.injEq] at h
      rw [← h.2]
      exact ⟨rfl, by rw [hs]; simp⟩
    · exact absurd h (by simp)

theorem add_kw_param_kinds (st : PState) (lvar : Nat) (u : Unit) (st' : PState)
    (h : add_kw_param st lvar = .ok (u, st')) : kindsEq st' st := by
  unfold add_kw_param at h
  split at h
  · exact absurd h (by simp)
  · rename_i c rest hs
    simp only [PRes.ok.injEq, Prod.mk.injEq] at h
    rw [← h.2]
    exact ⟨rfl, by rw [hs]; simp⟩

theorem new_kwrest_param_kinds (st : PState) (name : String) (loc : Loc) (u : Unit)
    (st' : PState) (h : new_kwrest_param st name loc = .ok (u, st')) : kindsEq st' st := by
  unfold new_kwrest_param at h
  split at h
  · exact absurd h (by simp)
  · rename_i c rest hs
    split at h
    · simp only [PRes.ok.injEq, Prod.mk.injEq] at h
      rw [← h.2]
      exact ⟨rfl, by rw [hs]; simp⟩
    · exact absurd h (by simp)

theorem new_block_param_kinds (st : PState) (name : String) (loc : Loc) (u : Unit)
    (st' : PState) (h : new_block_param st name loc = .ok (u, st')) : kindsEq st' st := by
  unfold new_block_param at h
  split at h
  · exact absurd h (by simp)
  · rename_i c rest hs
    split at h
    · simp only [PRes.ok.injEq, Prod.mk.injEq] at h
      rw [← h.2]
      exact ⟨rfl, by rw [hs]; simp⟩
    · exact absurd h (by simp)

theorem new_delegate_param_kinds (st : PState) (loc : Loc) (u : Unit) (st' : PState)
    (h : new_delegate_param st loc = .ok (u, st')) : kindsEq st' st := by
  unfold new_delegate_param at h
  split at h
  · exact absurd h (by simp)
  · rename_i c rest hs
    split at h
    · simp only [PRes.ok.injEq, Prod.mk.injEq] at h
      rw [← h.2]
      exact ⟨rfl, by rw [hs]; simp⟩
    · exact absurd h (by simp)

theorem insert_walk_kinds :
    ∀ (scope : List LvarScope) (name : String) (s' : List LvarScope),
      insert_walk scope name = some s' →
      s'.map LvarScope.kind = scope.map LvarScope.kind
  | [], name, s', h => by simp [insert_walk] at h
  | f :: scope, name, s', h => by
    rw [insert_walk_cons] at h
    cases hk : f.kind with
    | For =>
      rw [hk] at h
      simp only [Option.map_eq_some'] at h
      obtain ⟨s'', hs'', hmap⟩ := h
      rw [← hmap]
      simp only [List.map_cons]
      rw [insert_walk_kinds scope name s'' hs'']
    | Eval =>
      rw [hk] at h
      simp only [Option.some.injEq] at h
      rw [← h]
      simp [hk]
    | Class =>
      rw [hk] at h
      simp only [Option.some.injEq] at h
      rw [← h]
      simp [hk]
    | Method =>
      rw [hk] at h
      simp only [Option.some.injEq] at h
      rw [← h]
      simp [hk]
    | Block =>
      rw [hk] at h
      simp only [Option.some.injEq] at h
      rw [← h]
      simp [hk]

theorem add_local_var_kinds (st : PState) (name : String) (i : Nat) (st' : PState)
    (h : st.add_local_var_if_new name = .ok (i, st')) : kindsEq st' st := by
  unfold PState.add_local_var_if_new at h
  split at h
  · rename_i outer scope' hadd
    simp only [PRes.ok.injEq, Prod.mk.injEq] at h
    rw [← h.2]
    refine ⟨rfl, ?_⟩
    unfold add_local_var_if_new at hadd
    split at hadd
    · simp only [Option.some.injEq, Prod.mk.injEq] at hadd
      rw [← hadd.2]
    · simp only [Option.map_eq_some'] at hadd
      obtain ⟨s'', hs'', hmap⟩ := hadd
      injection hmap with hm1 hm2
      rw [← hm2]
      exact insert_walk_kinds st.scope name s'' hs''
  · exact absurd h (by simp)

theorem consume_punct_kinds {st : PState} {p : Punct} {b : Bool} {st1 : PState}
    (heq : consume_punct st p = (b, st1)) : kindsEq st1 st := by
  have h := consume_punct_stacks st p
  rw [heq] at h
  exact kindsEq_of_stacks h.1 h.2

theorem consume_punct_no_term_kinds {st : PState} {p : Punct} {b : Bool} {st1 : PState}
    (heq : consume_punct_no_term st p = (b, st1)) : kindsEq st1 st := by
  have h := consume_punct_no_term_stacks st p
  rw [heq] at h
  exact kindsEq_of_stacks h.1 h.2

theorem consume_reserved_kinds {st : PState} {r : Reserved} {b : Bool} {st1 : PState}
    (heq : consume_reserved st r = (b, st1)) : kindsEq st1 st := by
  have h := consume_reserved_stacks st r
  rw [heq] at h
  exact kindsEq_of_stacks h.1 h.2

theorem consume_reserved_no_skip_line_term_kinds {st : PState} {r : Reserved} {b : Bool}
    {st1 : PState} (heq : consume_reserved_no_skip_line_term st r = (b, st1)) :
    kindsEq st1 st := by
  have h := consume_reserved_no_skip_line_term_stacks st r
  rw [heq] at h
  exact kindsEq_of_stacks h.1 h.2

theorem consume_ident_kinds {st : PState} {o : Option String} {st1 : PState}
    (heq : consume_ident st = (o, st1)) : kindsEq st1 st := by
  have h := consume_ident_stacks st
  rw [heq] at h
  exact kindsEq_of_stacks h.1 h.2

theorem consume_term_kinds {st : PState} {b : Bool} {st1 : PState}
    (heq : consume_term st = (b, st1)) : kindsEq st1 st := by
  have h := consume_term_stacks st
  rw [heq] at h
  exact kindsEq_of_stacks h.1 h.2

theorem consume_terminator_kinds {term : Option Punct} {st : PState} {b : Bool}
    {st1 : PState} (heq : consume_terminator term st = (b, st1)) : kindsEq st1 st := by
  have h := consume_terminator_stacks term st
  rw [heq] at h
  exact kindsEq_of_stacks h.1 h.2

theorem consume_comma_sep_kinds {term : Option Punct} {st : PState} {b : Bool}
    {st1 : PState} (heq : consume_comma_sep term st = (b, st1)) : kindsEq st1 st := by
  have h := consume_comma_sep_stacks term st
  rw [heq] at h
  exact kindsEq_of_stacks h.1 h.2

theorem expect_ident_kinds {st : PState} {name : String} {st1 : PState}
    (heq : expect_ident st = .ok (name, st1)) : kindsEq st1 st := by
  have h := expect_ident_stacks st name st1 heq
  exact kindsEq_of_stacks h.1 h.2

theorem expect_punct_kinds {st : PState} {p : Punct} {u : Unit} {st1 : PState}
    (heq : expect_punct st p = .ok (u, st1)) : kindsEq st1 st := by
  have h := expect_punct_stacks st p u st1 heq
  exact kindsEq_of_stacks h.1 h.2

theorem expect_reserved_kinds {st : PState} {r : Reserved} {u : Unit} {st1 : PState}
    (heq : expect_reserved st r = .ok (u, st1)) : kindsEq st1 st := by
  have h := expect_reserved_stacks st r u st1 heq
  exact kindsEq_of_stacks h.1 h.2

theorem parse_then_kinds {st : PState} {u : Unit} {st1 : PState}
    (heq : parse_then st = .ok (u, st1)) : kindsEq st1 st := by
  have h := parse_then_stacks st u st1 heq
  exact kindsEq_of_stacks h.1 h.2

theorem parse_do_kinds {st : PState} {u : Unit} {st1 : PState}
    (heq : parse_do st = .ok (u, st1)) : kindsEq st1 st := by
  have h := parse_do_stacks st u st1 heq
  exact kindsEq_of_stacks h.1 h.2

theorem finish_params_kinds {term : Option Punct} {A : List FormalParam} {st : PState}
    {args' : List FormalParam} {st' : PState}
    (h : finish_params term A st = .ok (args', st')) : kindsEq st' st := by
  unfold finish_params at h
  cases term with
  | none =>
    simp only [PRes.ok.injEq, Prod.mk.injEq] at h
    rw [← h.2]
    exact kindsEq_refl st
  | some t =>
    rw [pbind_ok] at h
    obtain ⟨u, st2, hep, hf⟩ := h
    simp only [PRes.ok.injEq, Prod.mk.injEq] at hf
    rw [← hf.2]
    exact expect_punct_kinds hep

theorem parse_destruct_loop_kinds :
    ∀ (fuel : Nat) (idents : List (String × Loc)) (st : PState)
      (res : List (String × Loc)) (st' : PState),
      parse_destruct_loop fuel idents st = .ok (res, st') → kindsEq st' st
  | 0, idents, st, res, st', h => by simp [parse_destruct_loop] at h
  | fuel + 1, idents, st, res, st', h => by
    unfold parse_destruct_loop at h
    split at h
    rename_i x1 b st1 heq1
    split at h
    · split at h
      rename_i x2 bRP st2 heq2
      split at h
      · simp only [PRes.ok.injEq, Prod.mk.injEq] at h
        rw [← h.2]
        exact kindsEq_trans (consume_punct_kinds heq2) (consume_punct_kinds heq1)
      · simp only [pbind_ok] at h
        obtain ⟨name, st3, hei, h⟩ := h
        obtain ⟨u, st4, hnp, h⟩ := h
        have hrec := parse_destruct_loop_kinds fuel _ st4 res st' h
        exact kindsEq_trans hrec (kindsEq_trans (new_param_kinds _ _ _ _ _ hnp)
          (kindsEq_trans (expect_ident_kinds hei)
            (kindsEq_trans (consume_punct_kinds heq2) (consume_punct_kinds heq1))))
    · rw [pbind_ok] at h
      obtain ⟨u, st2, hep, hf⟩ := h
      simp only [PRes.ok.injEq, Prod.mk.injEq] at hf
      rw [← hf.2]
      exact kindsEq_trans (expect_punct_kinds hep) (consume_punct_kinds heq1)

theorem parse_destruct_param_kinds (fuel : Nat) (st : PState) (q : FormalParam)
    (st' : PState) (h : parse_destruct_param fuel st = .ok (q, st')) : kindsEq st' st := by
  unfold parse_destruct_param at h
  rw [pbind_ok] at h
  obtain ⟨name, st1, hei, h⟩ := h
  rw [pbind_ok] at h
  obtain ⟨i, st2, hnp, h⟩ := h
  rw [pbind_ok] at h
  obtain ⟨idents, st3, hloop, hf⟩ := h
  simp only [PRes.ok.injEq, Prod.mk.injEq] at hf
  rw [← hf.2]
  exact kindsEq_trans (parse_destruct_loop_kinds fuel _ st2 idents st3 hloop)
    (kindsEq_trans (new_param_kinds _ _ _ _ _ hnp) (expect_ident_kinds hei))

theorem consume_punct_kinds2 (st : PState) (p : Punct) :
    kindsEq (consume_punct st p).2 st :=
  kindsEq_of_stacks (consume_punct_stacks st p).1 (consume_punct_stacks st p).2

theorem consume_punct_no_term_kinds2 (st : PState) (p : Punct) :
    kindsEq (consume_punct_no_term st p).2 st :=
  kindsEq_of_stacks (consume_punct_no_term_stacks st p).1 (consume_punct_no_term_stacks st p).2

theorem consume_reserved_kinds2 (st : PState) (r : Reserved) :
    kindsEq (consume_reserved st r).2 st :=
  kindsEq_of_stacks (consume_reserved_stacks st r).1 (consume_reserved_stacks st r).2

theorem consume_reserved_no_skip_line_term_kinds2 (st : PState) (r : Reserved) :
    kindsEq (consume_reserved_no_skip_line_term st r).2 st :=
  kindsEq_of_stacks (consume_reserved_no_skip_line_term_stacks st r).1
    (consume_reserved_no_skip_line_term_stacks st r).2

theorem consume_term_kinds2 (st : PState) : kindsEq (consume_term st).2 st :=
  kindsEq_of_stacks (consume_term_stacks st).1 (consume_term_stacks st).2

theorem consume_ident_kinds2 (st : PState) : kindsEq (consume_ident st).2 st :=
  kindsEq_of_stacks (consume_ident_stacks st).1 (consume_ident_stacks st).2

theorem consume_terminator_kinds2 (term : Option Punct) (st : PState) :
    kindsEq (consume_terminator term st).2 st :=
  kindsEq_of_stacks (consume_terminator_stacks term st).1 (consume_terminator_stacks term st).2

theorem consume_comma_sep_kinds2 (term : Option Punct) (st : PState) :
    kindsEq (consume_comma_sep term st).2 st :=
  kindsEq_of_stacks (consume_comma_sep_stacks term st).1 (consume_comma_sep_stacks term st).2

set_option maxHeartbeats 2000000 in
theorem param_step_kinds (sp : SubParsers) (term : Option Punct) (fuel : Nat)
    (state : ParamKind) (st : PState) (p : FormalParam) (state' : ParamKind)
    (brk : Bool) (st' : PState)
    (harg : preservesStacks sp.parse_arg) (hprim : preservesStacks sp.parse_primary)
    (h : param_step sp term fuel state st = .ok ((p, state', brk), st')) :
    kindsEq st' st := by
  unfold param_step at h
  split at h
  rename_i x1 bLP st1 heq1
  have k1 : kindsEq st1 st := consume_punct_kinds heq1
  split at h
  · simp only [pbind_ok] at h
    obtain ⟨q, st2, hd, hf⟩ := h
    simp only [PRes.ok.injEq, Prod.mk.injEq] at hf
    rw [← hf.2]
    exact kindsEq_trans (parse_destruct_param_kinds fuel st1 q st2 hd) k1
  · split at h
    rename_i x2 bR3 st2 heq2
    have k2 : kindsEq st2 st := kindsEq_trans (consume_punct_kinds heq2) k1
    split at h
    · split at h
      · exact absurd h (by simp)
      · simp only [pbind_ok] at h
        obtain ⟨u, st3, hdel, hf⟩ := h
        simp only [PRes.ok.injEq, Prod.mk.injEq] at hf
        rw [← hf.2]
        exact kindsEq_trans (new_delegate_param_kinds _ _ _ _ hdel) k2
    · split at h
      rename_i x3 bAmp st3 heq3
      have k3 : kindsEq st3 st := kindsEq_trans (consume_punct_kinds heq3) k2
      split at h
      · simp only [pbind_ok] at h
        obtain ⟨name, stA, hei, h⟩ := h
        obtain ⟨u, stB, hbp, hf⟩ := h
        simp only [PRes.ok.injEq, Prod.mk.injEq] at hf
        rw [← hf.2]
        exact kindsEq_trans (new_block_param_kinds _ _ _ _ _ hbp)
          (kindsEq_trans (expect_ident_kinds hei) k3)
      · split at h
        rename_i x4 bMul st4 heq4
        have k4 : kindsEq st4 st := kindsEq_trans (consume_punct_kinds heq4) k3
        split at h
        · split at h
          · exact absurd h (by simp)
          · split at h
            rename_i x5 oname st5 heq5
            have k5 : kindsEq st5 st := kindsEq_trans (consume_ident_kinds heq5) k4
            split at h
            · simp only [pbind_ok] at h
              obtain ⟨u, st6, hnp, hf⟩ := h
              simp only [PRes.ok.injEq, Prod.mk.injEq] at hf
              rw [← hf.2]
              exact kindsEq_trans (new_param_kinds _ _ _ _ _ hnp) k5
            · simp only [PRes.ok.injEq, Prod.mk.injEq] at h
              rw [← h.2]
              exact k5
        · split at h
          rename_i x6 bDM st5 heq5
          have k5 : kindsEq st5 st := kindsEq_trans (consume_punct_kinds heq5) k4
          split at h
          · simp only [pbind_ok] at h
            obtain ⟨name, stE, hei, h⟩ := h
            split at h
            · exact absurd h (by simp)
            · simp only [pbind_ok] at h
              obtain ⟨u, stF, hkw, hf⟩ := h
              simp only [PRes.ok.injEq, Prod.mk.injEq] at hf
              rw [← hf.2]
              exact kindsEq_trans (new_kwrest_param_kinds _ _ _ _ _ hkw)
                (kindsEq_trans (expect_ident_kinds hei) k5)
          · simp only [pbind_ok] at h
            obtain ⟨name, stG, hei, h⟩ := h
            have kG : kindsEq stG st := kindsEq_trans (expect_ident_kinds hei) k5
            split at h
            · simp only [pbind_ok] at h
              obtain ⟨default, stH, hdef, h⟩ := h
              have kH : kindsEq stH stG := by
                split at hdef
                · exact kindsEq_trans (hprim _ _ _ hdef)
                    (consume_punct_kinds2 stG Punct.Assign)
                · exact kindsEq_trans (harg _ _ _ hdef)
                    (consume_punct_kinds2 stG Punct.Assign)
              cases state with
              | Required =>
                simp only [pbind_ok] at h
                obtain ⟨u, stI, hnp, hf⟩ := h
                simp only [PRes.ok.injEq, Prod.mk.injEq] at hf
                rw [← hf.2]
                exact kindsEq_trans (new_param_kinds _ _ _ _ _ hnp)
                  (kindsEq_trans kH kG)
              | Optional =>
                simp only [pbind_ok] at h
                obtain ⟨u, stI, hnp, hf⟩ := h
                simp only [PRes.ok.injEq, Prod.mk.injEq] at hf
                rw [← hf.2]
                exact kindsEq_trans (new_param_kinds _ _ _ _ _ hnp)
                  (kindsEq_trans kH kG)
              | Rest => simp at h
              | PostReq => simp at h
              | KeyWord => simp at h
              | KWRest => simp at h
            · split at h
              · simp only [pbind_ok] at h
                obtain ⟨default, stJ, hdef, h⟩ := h
                have kJ : kindsEq stJ stG := by
                  have kpre : kindsEq
                      (consume_punct_no_term (consume_punct stG Punct.Assign).2
                        Punct.Colon).2 stG :=
                    kindsEq_trans
                      (consume_punct_no_term_kinds2 (consume_punct stG Punct.Assign).2
                        Punct.Colon)
                      (consume_punct_kinds2 stG Punct.Assign)
                  split at hdef
                  · simp only [PRes.ok.injEq, Prod.mk.injEq] at hdef
                    rw [← hdef.2]
                    exact kpre
                  · split at hdef
                    · split at hdef
                      · simp only [PRes.ok.injEq, Prod.mk.injEq] at hdef
                        rw [← hdef.2]
                        exact kpre
                      · simp only [pbind_ok] at hdef
                        obtain ⟨d, stD, hac, hfd⟩ := hdef
                        simp only [PRes.ok.injEq, Prod.mk.injEq] at hfd
                        rw [← hfd.2]
                        exact kindsEq_trans (harg _ _ _ hac) kpre
                    · simp only [pbind_ok] at hdef
                      obtain ⟨d, stD, hac, hfd⟩ := hdef
                      simp only [PRes.ok.injEq, Prod.mk.injEq] at hfd
                      rw [← hfd.2]
                      exact kindsEq_trans (harg _ _ _ hac) kpre
                split at h
                · exact absurd h (by simp)
                · simp only [pbind_ok] at h
                  obtain ⟨lvar, stK, hnp, h⟩ := h
                  obtain ⟨u, stL, hakw, hf⟩ := h
                  simp only [PRes.ok.injEq, Prod.mk.injEq] at hf
                  rw [← hf.2]
                  exact kindsEq_trans (add_kw_param_kinds _ _ _ _ hakw)
                    (kindsEq_trans (new_param_kinds _ _ _ _ _ hnp)
                      (kindsEq_trans kJ kG))
              · have kB : kindsEq
                    (consume_punct_no_term (consume_punct stG Punct.Assign).2
                      Punct.Colon).2 st :=
                  kindsEq_trans
                    (kindsEq_trans
                      (consume_punct_no_term_kinds2 (consume_punct stG Punct.Assign).2
                        Punct.Colon)
                      (consume_punct_kinds2 stG Punct.Assign)) kG
                cases state with
                | Required =>
                  simp only [pbind_ok] at h
                  obtain ⟨u, stM, hnp, hf⟩ := h
                  simp only [PRes.ok.injEq, Prod.mk.injEq] at hf
                  rw [← hf.2]
                  exact kindsEq_trans (new_param_kinds _ _ _ _ _ hnp) kB
                | Optional =>
                  simp only [pbind_ok] at h
                  obtain ⟨u, stM, hnp, hf⟩ := h
                  simp only [PRes.ok.injEq, Prod.mk.injEq] at hf
                  rw [← hf.2]
                  exact kindsEq_trans (new_param_kinds _ _ _ _ _ hnp) kB
                | Rest =>
                  simp only [pbind_ok] at h
                  obtain ⟨u, stM, hnp, hf⟩ := h
                  simp only [PRes.ok.injEq, Prod.mk.injEq] at hf
                  rw [← hf.2]
                  exact kindsEq_trans (new_param_kinds _ _ _ _ _ hnp) kB
                | PostReq =>
                  simp only [pbind_ok] at h
                  obtain ⟨u, stM, hnp, hf⟩ := h
                  simp only [PRes.ok.injEq, Prod.mk.injEq] at hf
                  rw [← hf.2]
                  exact kindsEq_trans (new_param_kinds _ _ _ _ _ hnp) kB
                | KeyWord => simp at h
                | KWRest => simp at h

theorem parse_formal_params_loop_kinds :
    ∀ (fuel : Nat) (sp : SubParsers) (term : Option Punct) (state : ParamKind)
      (args : List FormalParam) (st : PState) (args' : List FormalParam) (st' : PState),
      preservesStacks sp.parse_arg → preservesStacks sp.parse_primary →
      parse_formal_params_loop sp term fuel state args st = .ok (args', st') →
      kindsEq st' st
  | 0, sp, term, state, args, st, args', st', harg, hprim, h => by
    simp [parse_formal_params_loop] at h
  | fuel + 1, sp, term, state, args, st, args', st', harg, hprim, h => by
    unfold parse_formal_params_loop at h
    split at h
    rename_i x bT st1 heq1
    have k1 : kindsEq st1 st := consume_terminator_kinds heq1
    split at h
    · simp only [PRes.ok.injEq, Prod.mk.injEq] at h
      rw [← h.2]
      exact k1
    · simp only [pbind_ok] at h
      obtain ⟨r, st2, hps, h⟩ := h
      obtain ⟨p, state2, brk⟩ := r
      have k2 : kindsEq st2 st :=
        kindsEq_trans (param_step_kinds sp term fuel state st1 p state2 brk st2
          harg hprim hps) k1
      split at h
      · exact kindsEq_trans (finish_params_kinds h) k2
      · split at h
        · exact kindsEq_trans
            (parse_formal_params_loop_kinds fuel sp term state2 (args ++ [p]) _
              args' st' harg hprim h)
            (kindsEq_trans (consume_comma_sep_kinds2 term st2) k2)
        · exact kindsEq_trans (finish_params_kinds h)
            (kindsEq_trans (consume_comma_sep_kinds2 term st2) k2)

theorem parse_formal_params_kinds (sp : SubParsers) (fuel : Nat) (term : Option Punct)
    (st : PState) (args' : List FormalParam) (st' : PState)
    (harg : preservesStacks sp.parse_arg) (hprim : preservesStacks sp.parse_primary)
    (h : parse_formal_params sp fuel term st = .ok (args', st')) : kindsEq st' st :=
  parse_formal_params_loop_kinds fuel sp term ParamKind.Required [] st args' st'
    harg hprim h

theorem parse_for_vars_kinds :
    ∀ (fuel : Nat) (vars : List (Nat × String)) (st : PState)
      (vars' : List (Nat × String)) (st' : PState),
      parse_for_vars fuel vars st = .ok (vars', st') → kindsEq st' st
  | 0, vars, st, vars', st', h => by simp [parse_for_vars] at h
  | fuel + 1, vars, st, vars', st', h => by
    unfold parse_for_vars at h
    simp only [pbind_ok] at h
    obtain ⟨name, st1, hei, h⟩ := h
    obtain ⟨outer, st2, hadd, h⟩ := h
    have k2 : kindsEq st2 st :=
      kindsEq_trans (add_local_var_kinds st1 name outer st2 hadd) (expect_ident_kinds hei)
    split at h
    · exact kindsEq_trans
        (parse_for_vars_kinds fuel _ _ vars' st' h)
        (kindsEq_trans (consume_punct_kinds2 st2 Punct.Comma) k2)
    · simp only [PRes.ok.injEq, Prod.mk.injEq] at h
      rw [← h.2]
      exact kindsEq_trans (consume_punct_kinds2 st2 Punct.Comma) k2

theorem for_dummy_loop_kinds :
    ∀ (loc : Loc) (k i : Nat) (acc : List FormalParam) (st : PState)
      (acc' : List FormalParam) (st' : PState),
      for_dummy_loop loc k i acc st = .ok (acc', st') → kindsEq st' st
  | loc, 0, i, acc, st, acc', st', h => by
    simp only [for_dummy_loop, PRes.ok.injEq, Prod.mk.injEq] at h
    rw [← h.2]
    exact kindsEq_refl st
  | loc, k + 1, i, acc, st, acc', st', h => by
    unfold for_dummy_loop at h
    simp only [pbind_ok] at h
    obtain ⟨u, st1, hnp, h⟩ := h
    exact kindsEq_trans (for_dummy_loop_kinds loc k (i + 1) _ st1 acc' st' h)
      (new_param_kinds _ _ _ _ _ hnp)

theorem parse_while_kinds (sp : SubParsers) (hexpr : preservesStacks sp.parse_expr)
    (hcomp : preservesStacks sp.parse_comp_stmt) (is_w : Bool) (st : PState)
    (n : Node) (st' : PState) (h : parse_while sp is_w st = .ok (n, st')) :
    kindsEq st' st := by
  unfold parse_while at h
  simp only [pbind_ok] at h
  obtain ⟨cond, stA, hc, h⟩ := h
  obtain ⟨u, stB, hdo, h⟩ := h
  obtain ⟨body, stC, hb, h⟩ := h
  obtain ⟨v, stD, hend, h⟩ := h
  have kA : kindsEq stA
      { st with
          suppress_do_block := true,
          loop_stack := LoopKind.While :: st.loop_stack } := hexpr _ _ _ hc
  have kD : kindsEq stD stA :=
    kindsEq_trans (expect_reserved_kinds hend)
      (kindsEq_trans (hcomp _ _ _ hb)
        (kindsEq_trans (parse_do_kinds hdo) ⟨rfl, rfl⟩))
  have kChain : kindsEq stD
      { st with
          suppress_do_block := true,
          loop_stack := LoopKind.While :: st.loop_stack } := kindsEq_trans kD kA
  split at h
  · exact absurd h (by simp)
  · rename_i hd lrest heql
    have e1 : hd :: lrest = LoopKind.While :: st.loop_stack := by
      rw [← heql]
      exact kChain.1
    injection e1 with e1a e1b
    have e2 : stD.scope.map LvarScope.kind = st.scope.map LvarScope.kind := kChain.2
    simp only [PRes.ok.injEq, Prod.mk.injEq] at h
    rw [← h.2]
    exact ⟨e1b, e2⟩

theorem parse_for_kinds (sp : SubParsers) (hexpr : preservesStacks sp.parse_expr)
    (hcomp : preservesStacks sp.parse_comp_stmt) (fuel : Nat) (st : PState)
    (n : Node) (st' : PState) (h : parse_for sp fuel st = .ok (n, st')) :
    kindsEq st' st := by
  unfold parse_for at h
  simp only [pbind_ok] at h
  obtain ⟨vars, st1, hvars, h⟩ := h
  obtain ⟨u, st2, hin, h⟩ := h
  obtain ⟨iter, st3, hex, h⟩ := h
  obtain ⟨u2, st4, hdo, h⟩ := h
  obtain ⟨body, st5, hbody, h⟩ := h
  obtain ⟨fps, st6, hfd, h⟩ := h
  have k4 : kindsEq st4 st :=
    kindsEq_trans (parse_do_kinds hdo)
      (kindsEq_trans (hexpr _ _ _ hex)
        (kindsEq_trans (expect_reserved_kinds hin)
          (parse_for_vars_kinds fuel [] st vars st1 hvars)))
  have kChain : kindsEq st6
      { st4 with
          scope := LvarScope.new_for :: st4.scope,
          loop_stack := LoopKind.For :: st4.loop_stack } :=
    kindsEq_trans (for_dummy_loop_kinds _ _ _ _ _ _ _ hfd) (hcomp _ _ _ hbody)
  split at h
  · exact absurd h (by simp)
  · rename_i hd lrest heql
    split at h
    · exact absurd h (by simp)
    · rename_i top srest heqs
      have e1 : hd :: lrest = LoopKind.For :: st4.loop_stack := by
        rw [← heql]
        exact kChain.1
      injection e1 with e1a e1b
      have e2 : (top :: srest).map LvarScope.kind =
          LvarScope.new_for.kind :: st4.scope.map LvarScope.kind := by
        rw [← heqs]
        exact kChain.2
      simp only [List.map_cons] at e2
      injection e2 with e2a e2b
      simp only [pbind_ok] at h
      obtain ⟨u3, st7, hend2, h⟩ := h
      have k7 : kindsEq st7 { st6 with loop_stack := lrest, scope := srest } :=
        expect_reserved_kinds hend2
      simp only [PRes.ok.injEq, Prod.mk.injEq] at h
      rw [← h.2]
      refine ⟨?_, ?_⟩
      · have h1 : st7.loop_stack = lrest := k7.1
        rw [h1, e1b]
        exact k4.1
      · have h2 : st7.scope.map LvarScope.kind = srest.map LvarScope.kind := k7.2
        rw [h2, e2b]
        exact k4.2

theorem parse_block_body_kinds (sp : SubParsers) (harg : preservesStacks sp.parse_arg)
    (hprim : preservesStacks sp.parse_primary) (hcomp : preservesStacks sp.parse_comp_stmt)
    (hbeg : preservesStacks sp.parse_begin) (fuel : Nat) (do_flag old_mul : Bool)
    (st : PState) (o : Option Node) (st' : PState)
    (h : parse_block_body sp fuel do_flag old_mul st = .ok (o, st')) : kindsEq st' st := by
  unfold parse_block_body at h
  split at h
  · -- do … end flavor: the body comes from parse_begin
    simp only [pbind_ok] at h
    obtain ⟨params, stB, hpar, h⟩ := h
    obtain ⟨body, stC, hbody, h⟩ := h
    have kB : kindsEq stB
        { st with
            scope := LvarScope.new_block none :: st.scope,
            loop_stack := LoopKind.Block :: st.loop_stack } := by
      split at hpar
      · exact kindsEq_trans (parse_formal_params_kinds _ _ _ _ _ _ harg hprim hpar)
          (consume_punct_kinds2 _ Punct.BitOr)
      · simp only [PRes.ok.injEq, Prod.mk.injEq] at hpar
        rw [← hpar.2]
        exact kindsEq_trans (consume_punct_kinds2 _ Punct.LOr)
          (consume_punct_kinds2 _ Punct.BitOr)
    have kChain : kindsEq stC
        { st with
            scope := LvarScope.new_block none :: st.scope,
            loop_stack := LoopKind.Block :: st.loop_stack } :=
      kindsEq_trans (hbeg _ _ _ hbody) kB
    split at h
    · exact absurd h (by simp)
    · rename_i hd lrest heql
      split at h
      · exact absurd h (by simp)
      · rename_i top srest heqs
        have e1 : hd :: lrest = LoopKind.Block :: st.loop_stack := by
          rw [← heql]
          exact kChain.1
        injection e1 with e1a e1b
        have e2 : (top :: srest).map LvarScope.kind =
            (LvarScope.new_block none).kind :: st.scope.map LvarScope.kind := by
          rw [← heqs]
          exact kChain.2
        simp only [List.map_cons] at e2
        injection e2 with e2a e2b
        simp only [PRes.ok.injEq, Prod.mk.injEq] at h
        rw [← h.2]
        exact ⟨e1b, e2b⟩
  · -- { … } flavor: the body comes from parse_comp_stmt and a closing brace
    simp only [pbind_ok] at h
    obtain ⟨params, stB, hpar, h⟩ := h
    obtain ⟨body, stC, hbody, h⟩ := h
    have kB : kindsEq stB
        { st with
            scope := LvarScope.new_block none :: st.scope,
            loop_stack := LoopKind.Block :: st.loop_stack } := by
      split at hpar
      · exact kindsEq_trans (parse_formal_params_kinds _ _ _ _ _ _ harg hprim hpar)
          (consume_punct_kinds2 _ Punct.BitOr)
      · simp only [PRes.ok.injEq, Prod.mk.injEq] at hpar
        rw [← hpar.2]
        exact kindsEq_trans (consume_punct_kinds2 _ Punct.LOr)
          (consume_punct_kinds2 _ Punct.BitOr)
    have kC : kindsEq stC stB := by
      obtain ⟨b2, stX, hcs, hbody⟩ := hbody
      obtain ⟨u, stY, hrb, hf⟩ := hbody
      simp only [PRes.ok.injEq, Prod.mk.injEq] at hf
      rw [← hf.2]
      exact kindsEq_trans (expect_punct_kinds hrb) (hcomp _ _ _ hcs)
    have kChain : kindsEq stC
        { st with
            scope := LvarScope.new_block none :: st.scope,
            loop_stack := LoopKind.Block :: st.loop_stack } :=
      kindsEq_trans kC kB
    split at h
    · exact absurd h (by simp)
    · rename_i hd lrest heql
      split at h
      · exact absurd h (by simp)
      · rename_i top srest heqs
        have e1 : hd :: lrest = LoopKind.Block :: st.loop_stack := by
          rw [← heql]
          exact kChain.1
        injection e1 with e1a e1b
        have e2 : (top :: srest).map LvarScope.kind =
            (LvarScope.new_block none).kind :: st.scope.map LvarScope.kind := by
          rw [← heqs]
          exact kChain.2
        simp only [List.map_cons] at e2
        injection e2 with e2a e2b
        simp only [PRes.ok.injEq, Prod.mk.injEq] at h
        rw [← h.2]
        exact ⟨e1b, e2b⟩

theorem parse_block_kinds (sp : SubParsers) (harg : preservesStacks sp.parse_arg)
    (hprim : preservesStacks sp.parse_primary) (hcomp : preservesStacks sp.parse_comp_stmt)
    (hbeg : preservesStacks sp.parse_begin) (fuel : Nat) (st : PState)
    (o : Option Node) (st' : PState)
    (h : parse_block sp fuel st = .ok (o, st')) : kindsEq st' st := by
  unfold parse_block at h
  simp only [pbind_ok] at h
  split at h
  · -- do blocks admitted: try `do` first
    split at h
    · exact kindsEq_trans
        (parse_block_body_kinds sp harg hprim hcomp hbeg fuel true _ _ o st' h)
        (kindsEq_trans
          (consume_reserved_no_skip_line_term_kinds2 _ Reserved.Do)
          (kindsEq_of_stacks rfl rfl))
    · split at h
      · exact kindsEq_trans
          (parse_block_body_kinds sp harg hprim hcomp hbeg fuel false _ _ o st' h)
          (kindsEq_trans (consume_punct_no_term_kinds2 _ Punct.LBrace)
            (kindsEq_trans
              (consume_reserved_no_skip_line_term_kinds2 _ Reserved.Do)
              (kindsEq_of_stacks rfl rfl)))
      · simp only [PRes.ok.injEq, Prod.mk.injEq] at h
        rw [← h.2]
        exact kindsEq_trans (kindsEq_of_stacks rfl rfl)
          (kindsEq_trans (consume_punct_no_term_kinds2 _ Punct.LBrace)
            (kindsEq_trans
              (consume_reserved_no_skip_line_term_kinds2 _ Reserved.Do)
              (kindsEq_of_stacks rfl rfl)))
  · -- do blocks suppressed: only a brace block can open
    split at h
    · rename_i hcon
      simp at hcon
    · split at h
      · exact kindsEq_trans
          (parse_block_body_kinds sp harg hprim hcomp hbeg fuel false _ _ o st' h)
          (kindsEq_trans (consume_punct_no_term_kinds2 _ Punct.LBrace)
            (kindsEq_of_stacks rfl rfl))
      · simp only [PRes.ok.injEq, Prod.mk.injEq] at h
        rw [← h.2]
        exact kindsEq_trans (kindsEq_of_stacks rfl rfl)
          (kindsEq_trans (consume_punct_no_term_kinds2 _ Punct.LBrace)
            (kindsEq_of_stacks rfl rfl))

theorem parse_arg_model_pres : preservesStacks parse_arg_model := by
  intro st n st' h
  unfold parse_arg_model at h
  split at h
  · rename_i t st2 hget
    split at h
    · simp only [PRes.ok.injEq, Prod.mk.injEq] at h
      rw [← h.2]
      exact kindsEq_of_stacks (get_stacks st t st2 hget).1 (get_stacks st t st2 hget).2
    · simp only [PRes.ok.injEq, Prod.mk.injEq] at h
      rw [← h.2]
      exact kindsEq_of_stacks (get_stacks st t st2 hget).1 (get_stacks st t st2 hget).2
    · exact absurd h (by simp)
  · exact absurd h (by simp)
  · exact absurd h (by simp)

theorem parse_comp_stmt_loop_pres :
    ∀ (fuel : Nat) (stmts : List Node) (st : PState) (n : Node) (st' : PState),
      parse_comp_stmt_loop fuel stmts st = .ok (n, st') → kindsEq st' st
  | 0, stmts, st, n, st', h => by simp [parse_comp_stmt_loop] at h
  | fuel + 1, stmts, st, n, st', h => by
    unfold parse_comp_stmt_loop at h
    split at h
    rename_i x b st1 heq1
    simp only [pbind_ok] at h
    have k1 : kindsEq st1 st := consume_term_kinds heq1
    split at h
    · simp only [PRes.ok.injEq, Prod.mk.injEq] at h
      rw [← h.2]
      exact k1
    · simp only [pbind_ok] at h
      obtain ⟨m, st2, ha, h⟩ := h
      exact kindsEq_trans (parse_comp_stmt_loop_pres fuel _ st2 n st' h)
        (kindsEq_trans (parse_arg_model_pres st1 m st2 ha) k1)

theorem parse_comp_stmt_model_pres : preservesStacks parse_comp_stmt_model :=
  fun st n st' h => parse_comp_stmt_loop_pres (st.tokens.length + 1) [] st n st' h

theorem parse_begin_model_pres : preservesStacks parse_begin_model := by
  intro st n st' h
  unfold parse_begin_model at h
  rw [pbind_ok] at h
  obtain ⟨m, st1, hc, h⟩ := h
  rw [pbind_ok] at h
  obtain ⟨u, st2, he, hf⟩ := h
  simp only [PRes.ok.injEq, Prod.mk.injEq] at hf
  rw [← hf.2]
  exact kindsEq_trans (expect_reserved_kinds he) (parse_comp_stmt_model_pres st m st1 hc)

/-- A statement-position sub-parser that consumes no tokens but declares the
local variable `x` through the embedded `add_local_var_if_new` — the behavior of
the real statement grammar on the body `x = 1`. -/
def decl_body (st : PState) : PRes (Node × PState) :=
  pbind (st.add_local_var_if_new "x") fun _ st => .ok (Node.new_nil st.prev_loc, st)

/-- `miniSub` with the statement position replaced by `decl_body`. -/
def spDecl : SubParsers := { miniSub with parse_comp_stmt := decl_body }

/-- **C9** (amended): on success, each loop- or block-introducing construct
parser is balanced — `parse_while` pushes one While loop marker, `parse_for` one
For scope frame and one For loop marker, `parse_block` one Block scope frame and
one Block loop marker, and each pops what it pushed before returning — so the
loop stack is restored exactly, and the scope stack is restored in depth and in
frame kinds (whenever the statement and expression sub-parsers preserve the
stacks the same way).  The scope frames below the pushed entries, however, are
not restored verbatim: bodies may declare new variables into them (see the
counterexample). -/
theorem c9_stack_balance (sp : SubParsers)
    (hexpr : preservesStacks sp.parse_expr) (hcomp : preservesStacks sp.parse_comp_stmt)
    (harg : preservesStacks sp.parse_arg) (hprim : preservesStacks sp.parse_primary)
    (hbeg : preservesStacks sp.parse_begin) :
    (∀ (is_w : Bool) (st : PState) (n : Node) (st' : PState),
        parse_while sp is_w st = .ok (n, st') →
        st'.loop_stack = st.loop_stack ∧
        st'.scope.map LvarScope.kind = st.scope.map LvarScope.kind) ∧
    (∀ (fuel : Nat) (st : PState) (n : Node) (st' : PState),
        parse_for sp fuel st = .ok (n, st') →
        st'.loop_stack = st.loop_stack ∧
        st'.scope.map LvarScope.kind = st.scope.map LvarScope.kind) ∧
    (∀ (fuel : Nat) (st : PState) (o : Option Node) (st' : PState),
        parse_block sp fuel st = .ok (o, st') →
        st'.loop_stack = st.loop_stack ∧
        st'.scope.map LvarScope.kind = st.scope.map LvarScope.kind) :=
  ⟨fun is_w st n st' h => parse_while_kinds sp hexpr hcomp is_w st n st' h,
   fun fuel st n st' h => parse_for_kinds sp hexpr hcomp fuel st n st' h,
   fun fuel st o st' h => parse_block_kinds sp harg hprim hcomp hbeg fuel st o st' h⟩

/-- The state entering `parse_while` over `while 1 do 2 end` (keyword already
consumed). -/
def c9WhileInit : PState :=
  { tokens := [⟨TokenKind.IntLit 1, ⟨2, 2⟩⟩, ⟨TokenKind.Reserved Reserved.Do, ⟨4, 5⟩⟩,
               ⟨TokenKind.IntLit 2, ⟨7, 7⟩⟩, ⟨TokenKind.Reserved Reserved.End, ⟨9, 11⟩⟩],
    eofLoc := ⟨12, 12⟩, prev_loc := ⟨0, 4⟩,
    scope := [LvarScope.new_eval none], loop_stack := [LoopKind.Top],
    extern_context := [], suppress_acc_assign := false, suppress_mul_assign := false,
    suppress_do_block := false, defined_mode := false }

/-- The node `parse_while` yields over `while 1 do 2 end`. -/
def c9WhileNode : Node :=
  Node.whileNode (Node.integer 1 ⟨2, 2⟩)
    (Node.compStmt [Node.integer 2 ⟨7, 7⟩] ⟨9, 11⟩) true ⟨0, 11⟩

/-- The state leaving `parse_while` over `while 1 do 2 end`. -/
def c9WhileFinal : PState :=
  { tokens := [], eofLoc := ⟨12, 12⟩, prev_loc := ⟨9, 11⟩,
    scope := [LvarScope.new_eval none], loop_stack := [LoopKind.Top],
    extern_context := [], suppress_acc_assign := false, suppress_mul_assign := false,
    suppress_do_block := false, defined_mode := false }

/-- Witness for C9 at a concrete run of `parse_while` over the restricted
grammar (`while 1 do 2 end` after the keyword): the parse succeeds and the final
loop stack and scope-frame kinds equal the initial ones. -/
theorem c9_stack_balance_witness :
    parse_while miniSub true c9WhileInit = .ok (c9WhileNode, c9WhileFinal) ∧
    c9WhileFinal.loop_stack = c9WhileInit.loop_stack ∧
    c9WhileFinal.scope.map LvarScope.kind = c9WhileInit.scope.map LvarScope.kind := by
  refine ⟨rfl, ?_⟩
  exact (c9_stack_balance miniSub parse_arg_model_pres parse_comp_stmt_model_pres
    parse_arg_model_pres parse_arg_model_pres parse_begin_model_pres).1 true
    c9WhileInit c9WhileNode c9WhileFinal rfl

/-- Counterexample to C9 as stated: the scope stack does not keep "the same
content below the pushed entries".  Over `while 1 do x = 1 end` (statement
position embodied by `decl_body`, which only calls the embedded
`add_local_var_if_new`), `parse_while` succeeds with the loop stack restored,
yet the surviving scope frame gained the slot for `x`: the final scope differs
from the initial one. -/
theorem c9_scope_content_counterexample :
    parse_while spDecl true
      { tokens := [⟨TokenKind.IntLit 1, ⟨2, 2⟩⟩, ⟨TokenKind.Reserved Reserved.Do, ⟨4, 5⟩⟩,
                   ⟨TokenKind.Reserved Reserved.End, ⟨7, 9⟩⟩],
        eofLoc := ⟨10, 10⟩, prev_loc := ⟨0, 4⟩,
        scope := [LvarScope.new_eval none], loop_stack := [LoopKind.Top],
        extern_context := [], suppress_acc_assign := false, suppress_mul_assign := false,
        suppress_do_block := false, defined_mode := false } =
      .ok (Node.whileNode (Node.integer 1 ⟨2, 2⟩) (Node.nil ⟨4, 5⟩) true ⟨0, 9⟩,
           { tokens := [], eofLoc := ⟨10, 10⟩, prev_loc := ⟨7, 9⟩,
             scope := [⟨ScopeKind.Eval, ⟨["x"], [], none, none, none⟩⟩],
             loop_stack := [LoopKind.Top], extern_context := [],
             suppress_acc_assign := false, suppress_mul_assign := false,
             suppress_do_block := false, defined_mode := false }) ∧
    ([⟨ScopeKind.Eval, ⟨["x"], [], none, none, none⟩⟩] : List LvarScope) ≠
      [LvarScope.new_eval none] :=
  ⟨rfl, by decide⟩

end RurubyParse
